import Mathlib

/-!
# Verification of the distributed-array utilities (`nbodykit/utils.py`)

This file gives a shallow embedding of the distributed-array subsystem of
`src/nbodykit/utils.py` and proves (or refutes) the specification claims
about it.

Modelling conventions:

* A cluster of `P` ranks running the same (SPMD) function is modelled as a
  single Lean function taking the list of all per-rank inputs (index = rank)
  and returning either the list of per-rank results or, when the code raises
  on the ranks, an `Except.error`.  The MPI collectives are modelled by
  their defining semantics: `allgather` is the list of all per-rank values,
  `bcast` picks the broadcasting rank's value, `Gatherv`/`Scatterv` with
  counts equal to the per-rank lengths and offsets equal to their exclusive
  prefix sums are concatenation in rank order / slicing by offset.
* numpy machine integers (`intp`) are modelled as `Int`/`Nat`; none of the
  verified claims involve integer overflow.
* Values held in arrays are modelled by the inductive `Val` (scalars and
  structured records), and numpy dtype descriptors by `Dtype`.
-/

namespace NbodykitUtils

/-! ## DistributedArray.cempty local lengths

`cempty` (utils.py lines 589-601) assigns to rank `r` the local length
`cshape[0] * (rank + 1) // size - cshape[0] * rank // size`.
-/

/-- Local length that `DistributedArray.cempty` assigns to rank `r`
for global length `L` over `P` ranks:
`llen = cshape[0] * (comm.rank + 1) // comm.size - cshape[0] * (comm.rank) // comm.size`. -/
def cemptyLocalLen (L P r : Nat) : Nat :=
  L * (r + 1) / P - L * r / P

/-- The per-rank lengths assigned by `cempty` over all `P` ranks. -/
def cemptyLens (L P : Nat) : List Nat :=
  (List.range P).map (cemptyLocalLen L P)

lemma cemptyLocalLen_mono (L P r : Nat) : L * r / P ≤ L * (r + 1) / P :=
  Nat.div_le_div_right (Nat.mul_le_mul_left L (Nat.le_succ r))

lemma cemptyLens_sum (L P : Nat) (hP : 0 < P) : (cemptyLens L P).sum = L := by
  have key : ∀ n : Nat, ((List.range n).map (cemptyLocalLen L P)).sum = L * n / P := by
    intro n
    induction n with
    | zero => simp
    | succ n ih =>
      rw [List.range_succ, List.map_append, List.sum_append, ih]
      simp only [List.map_cons, List.map_nil, List.sum_cons, List.sum_nil]
      have := cemptyLocalLen_mono L P n
      unfold cemptyLocalLen
      omega
  rw [cemptyLens, key P, Nat.mul_div_cancel L hP]

lemma cemptyLocalLen_bounds (L P r : Nat) (hP : 0 < P) :
    L / P ≤ cemptyLocalLen L P r ∧ cemptyLocalLen L P r ≤ L / P + 1 := by
  unfold cemptyLocalLen
  have hadd : L * (r + 1) / P = L * r / P + L / P +
      if P ≤ L * r % P + L % P then 1 else 0 := by
    rw [show L * (r + 1) = L * r + L by ring]
    exact Nat.add_div hP
  rw [hadd, Nat.add_assoc, Nat.add_sub_cancel_left]
  refine ⟨Nat.le_add_right _ _, Nat.add_le_add_left ?_ _⟩
  split <;> omega

lemma cemptyLocalLen_zero (L P : Nat) : cemptyLocalLen L P 0 = L / P := by
  simp [cemptyLocalLen]

/-- `L * (P - 1) % P` in closed form: congruent to `-L` modulo `P`. -/
lemma mul_pred_mod (L P : Nat) (hP : 0 < P) :
    L * (P - 1) % P = if L % P = 0 then 0 else P - L % P := by
  have h := Nat.div_add_mod L P
  by_cases hm0 : L % P = 0
  · have key : L * (P - 1) = P * ((L / P) * (P - 1)) := by
      calc L * (P - 1) = (P * (L / P) + L % P) * (P - 1) := by rw [h]
      _ = P * ((L / P) * (P - 1)) + (L % P) * (P - 1) := by ring
      _ = P * ((L / P) * (P - 1)) := by rw [hm0]; ring
    rw [key, if_pos hm0, Nat.mul_mod_right]
  · have hm : L % P < P := Nat.mod_lt _ hP
    have hm1 : 1 ≤ L % P := Nat.one_le_iff_ne_zero.mpr hm0
    have hP2 : 2 ≤ P := by omega
    have key : L * (P - 1) = P * ((L / P) * (P - 1) + (L % P - 1)) + (P - L % P) := by
      have hz : (P : ℤ) * ((L / P : Nat) : ℤ) + ((L % P : Nat) : ℤ) = (L : ℤ) := by
        exact_mod_cast h
      zify [hm1, le_of_lt hm, Nat.one_le_of_lt hP2]
      push_cast at hz
      linear_combination (1 - (P : ℤ)) * hz
    rw [key, Nat.mul_add_mod, Nat.mod_eq_of_lt (by omega), if_neg hm0]

lemma cemptyLocalLen_last (L P : Nat) (hP : 0 < P) :
    cemptyLocalLen L P (P - 1) = L / P + (if L % P = 0 then 0 else 1) := by
  have hP1 : P - 1 + 1 = P := Nat.succ_pred_eq_of_pos hP
  unfold cemptyLocalLen
  rw [hP1]
  have hLP : L * P = L * (P - 1) + L := by
    conv_lhs => rw [← hP1]
    ring
  have hd : L = L * (P - 1) / P + L / P +
      (if P ≤ L * (P - 1) % P + L % P then 1 else 0) := by
    conv_lhs => rw [← Nat.mul_div_cancel L hP, hLP]
    exact Nat.add_div hP
  rw [Nat.mul_div_cancel L hP]
  have hmod := mul_pred_mod L P hP
  by_cases hm0 : L % P = 0
  · rw [if_pos hm0]
    rw [hmod, if_pos hm0, hm0] at hd
    rw [if_neg (by omega)] at hd
    generalize L * (P - 1) / P = A at hd ⊢
    generalize L / P = B at hd ⊢
    omega
  · have hm : L % P < P := Nat.mod_lt _ hP
    have hm1 : 1 ≤ L % P := Nat.one_le_iff_ne_zero.mpr hm0
    rw [if_neg hm0]
    rw [hmod, if_neg hm0] at hd
    rw [if_pos (by omega)] at hd
    generalize L * (P - 1) / P = A at hd ⊢
    generalize L / P = B at hd ⊢
    omega

/-- C7 counterexample: the claim predicts that every rank below `L mod P`
receives the extra element, i.e. rank 0 receives `L / P + 1` whenever
`0 < L mod P`.  For `L = 1, P = 2` the code gives rank 0 local length `0`,
not `1 / 2 + 1 = 1`. -/
theorem cempty_remainder_lowest_counterexample :
    0 < 1 % 2 ∧ cemptyLocalLen 1 2 0 ≠ 1 / 2 + 1 := by decide

/-- C7 (amended): `DistributedArray.cempty` partitions the global length `L`
over `P` ranks as evenly as possible — every local length is `⌊L/P⌋` or
`⌊L/P⌋ + 1` and they sum to `L` — but the `L mod P` extra elements go to
higher-numbered ranks, not the lowest: rank 0 always receives `⌊L/P⌋` and
rank `P - 1` always receives `⌈L/P⌉`. -/
theorem cempty_partition (L P : Nat) (hP : 0 < P) :
    (cemptyLens L P).sum = L ∧
    (∀ r < P, L / P ≤ cemptyLocalLen L P r ∧ cemptyLocalLen L P r ≤ L / P + 1) ∧
    cemptyLocalLen L P 0 = L / P ∧
    cemptyLocalLen L P (P - 1) = L / P + (if L % P = 0 then 0 else 1) :=
  ⟨cemptyLens_sum L P hP, fun r _ => cemptyLocalLen_bounds L P r hP,
   cemptyLocalLen_zero L P, cemptyLocalLen_last L P hP⟩

/-- Witness for `cempty_partition` at `L = 5, P = 3` (lengths `[1, 2, 2]`). -/
theorem cempty_partition_witness :
    0 < 3 ∧
    ((cemptyLens 5 3).sum = 5 ∧
     (∀ r < 3, 5 / 3 ≤ cemptyLocalLen 5 3 r ∧ cemptyLocalLen 5 3 r ≤ 5 / 3 + 1) ∧
     cemptyLocalLen 5 3 0 = 5 / 3 ∧
     cemptyLocalLen 5 3 (3 - 1) = 5 / 3 + (if 5 % 3 = 0 then 0 else 1)) :=
  ⟨by decide, cempty_partition 5 3 (by decide)⟩

/-! ## EmptyRank sentinel and LinearTopology (utils.py lines 764-855)

`EmptyRankType` is a singleton class whose `__reduce__` returns
`(_get_empty_rank, ())`, so that pickling the sentinel (as the
communicator's `allgather` does) serializes a reconstruction token, and
unpickling calls `_get_empty_rank`, which returns the module-level
singleton again. -/

/-- A per-rank boundary value: either the `EmptyRank` sentinel ("this rank
holds no elements") or an actual element value.  Modelling the sentinel as
a separate constructor captures that `EmptyRank` is a distinguished object
that compares unequal (`is not`) to every element value. -/
inductive BoundaryVal (α : Type) where
  | emptyRank : BoundaryVal α
  | val (x : α) : BoundaryVal α
deriving DecidableEq, Repr

/-- The pickled (serialized) form of a boundary value as it crosses the
communicator: the sentinel serializes to the token `(_get_empty_rank, ())`
produced by `EmptyRankType.__reduce__`; ordinary values serialize to their
data. -/
inductive PickledBoundary (α : Type) where
  | sentinelToken : PickledBoundary α
  | datum (x : α) : PickledBoundary α
deriving DecidableEq, Repr

/-- `_get_empty_rank()`: returns the module-level singleton `EmptyRank`. -/
def getEmptyRank (α : Type) : BoundaryVal α := .emptyRank

/-- Pickling a boundary value (`EmptyRankType.__reduce__` for the sentinel). -/
def pickleBoundary {α : Type} : BoundaryVal α → PickledBoundary α
  | .emptyRank => .sentinelToken
  | .val x => .datum x

/-- Unpickling: the sentinel token is reconstructed by calling
`_get_empty_rank`, yielding the singleton again. -/
def unpickleBoundary {α : Type} : PickledBoundary α → BoundaryVal α
  | .sentinelToken => getEmptyRank α
  | .datum x => .val x

/-- First value in the list that `is not EmptyRank`, else `EmptyRank`
(the scan inside `LinearTopology.prev`/`next`). -/
def firstNonEmpty {α : Type} : List (BoundaryVal α) → BoundaryVal α
  | [] => .emptyRank
  | .emptyRank :: rest => firstNonEmpty rest
  | .val x :: _ => .val x

/-- One rank's contribution to `heads`: its first local item, or `EmptyRank`
when the rank is empty. -/
def headBV {α : Type} (l : List α) : BoundaryVal α :=
  match l.head? with | none => .emptyRank | some x => .val x

/-- One rank's contribution to `tails`: its last local item, or `EmptyRank`
when the rank is empty. -/
def tailBV {α : Type} (l : List α) : BoundaryVal α :=
  match l.getLast? with | none => .emptyRank | some x => .val x

/-- `LinearTopology.heads`: allgather of each rank's first local item,
`EmptyRank` for empty ranks. -/
def topoHeads {α : Type} (locals : List (List α)) : List (BoundaryVal α) :=
  locals.map headBV

/-- `LinearTopology.tails`: allgather of each rank's last local item,
`EmptyRank` for empty ranks. -/
def topoTails {α : Type} (locals : List (List α)) : List (BoundaryVal α) :=
  locals.map tailBV

/-- `LinearTopology.prev` on rank `r`: scan `tails[:rank]` backwards for the
first non-`EmptyRank` value. -/
def topoPrev {α : Type} (locals : List (List α)) (r : Nat) : BoundaryVal α :=
  firstNonEmpty ((topoTails locals).take r).reverse

/-- `LinearTopology.next` on rank `r`: scan `heads[rank+1:]` forwards for the
first non-`EmptyRank` value. -/
def topoNext {α : Type} (locals : List (List α)) (r : Nat) : BoundaryVal α :=
  firstNonEmpty ((topoHeads locals).drop (r + 1))

/-- C8: unpickling a pickled `EmptyRank` yields the identical singleton
(`unpickle ∘ pickle = id`, and the sentinel maps back to the value returned
by `_get_empty_rank`); the sentinel never equals a legitimate element
value; and the `is not EmptyRank` scans of `LinearTopology.prev`/`next`
give the same answer on boundary values that have passed through the
communicator (pickle/unpickle round-trip) as on the originals. -/
theorem emptyRank_pickle_roundtrip :
    (∀ b : BoundaryVal Int, unpickleBoundary (pickleBoundary b) = b) ∧
    (unpickleBoundary (pickleBoundary (BoundaryVal.emptyRank : BoundaryVal Int))
      = getEmptyRank Int) ∧
    (∀ x : Int, (BoundaryVal.val x : BoundaryVal Int) ≠ BoundaryVal.emptyRank) ∧
    (∀ (tails : List (BoundaryVal Int)) (r : Nat),
      firstNonEmpty (((tails.map (fun b => unpickleBoundary (pickleBoundary b))).take r).reverse)
        = firstNonEmpty ((tails.take r).reverse)) := by
  have hrt : ∀ b : BoundaryVal Int, unpickleBoundary (pickleBoundary b) = b := by
    intro b; cases b <;> rfl
  refine ⟨hrt, rfl, fun x h => BoundaryVal.noConfusion h, fun tails r => ?_⟩
  have hmap : tails.map (fun b => unpickleBoundary (pickleBoundary b)) = tails := by
    rw [show (fun b : BoundaryVal Int => unpickleBoundary (pickleBoundary b)) = id
      from funext hrt, List.map_id]
  rw [hmap]

/-! ### Boundary scans in terms of the joined global array -/

lemma firstNonEmpty_append {α : Type} (xs ys : List (BoundaryVal α)) :
    firstNonEmpty (xs ++ ys) =
      match firstNonEmpty xs with
      | .emptyRank => firstNonEmpty ys
      | .val x => .val x := by
  induction xs with
  | nil => simp [firstNonEmpty]
  | cons b rest ih =>
    cases b with
    | emptyRank => simpa [firstNonEmpty] using ih
    | val x => simp [firstNonEmpty]

lemma heads_join {α : Type} (ls : List (List α)) :
    firstNonEmpty (ls.map headBV) = headBV ls.flatten := by
  induction ls with
  | nil => rfl
  | cons l rest ih =>
    cases l with
    | nil => simpa [headBV, firstNonEmpty] using ih
    | cons a t => simp [headBV, firstNonEmpty]

lemma tails_join {α : Type} (ls : List (List α)) :
    firstNonEmpty ((ls.map tailBV).reverse) = tailBV ls.flatten := by
  induction ls with
  | nil => rfl
  | cons l rest ih =>
    rw [List.map_cons, List.reverse_cons, firstNonEmpty_append, ih, List.flatten_cons]
    rcases hr : rest.flatten with _ | ⟨a, t⟩
    · rw [List.append_nil]
      cases h : tailBV l <;> simp [tailBV, firstNonEmpty, h]
    · have h1 : tailBV (a :: t) = .val ((a :: t).getLast (by simp)) := by
        simp [tailBV, List.getLast?_eq_getLast]
      have h2 : tailBV (l ++ a :: t) = .val ((a :: t).getLast (by simp)) := by
        simp [tailBV, List.getLast?_append_cons, List.getLast?_eq_getLast]
      rw [h1, h2]

/-- `topology.next()` on rank `r` is the first element of the join of the
locals of ranks after `r`. -/
lemma topoNext_eq (locals : List (List α)) (r : Nat) :
    topoNext locals r = headBV ((locals.drop (r + 1)).flatten) := by
  rw [topoNext, topoHeads, ← List.map_drop, heads_join]

/-- `topology.prev()` on rank `r` is the last element of the join of the
locals of ranks before `r`. -/
lemma topoPrev_eq (locals : List (List α)) (r : Nat) :
    topoPrev locals r = tailBV ((locals.take r).flatten) := by
  rw [topoPrev, topoTails, ← List.map_take, tails_join]

/-! ## DistributedArray.unique_labels (utils.py lines 652-689) -/

/-- `junk = numpy.unique(local)`: the sorted list of the distinct local
values. -/
def npUnique (l : List Int) : List Int :=
  List.insertionSort (· ≤ ·) l.dedup

/-- Position of `x` in a list (0 if absent). -/
def idxIn (x : Int) : List Int → Nat
  | [] => 0
  | a :: rest => if a = x then 0 else idxIn x rest + 1

/-- The inverse index `numpy.unique(local, return_inverse=True)` assigns to
an element of value `x`: the position of `x` in the sorted distinct-value
list `junk`. -/
def npInverse (l : List Int) (x : Int) : Nat := idxIn x (npUnique l)

lemma npUnique_perm (l : List Int) : List.Perm (npUnique l) l.dedup :=
  List.perm_insertionSort _ _

lemma npUnique_sorted (l : List Int) : (npUnique l).Sorted (· ≤ ·) :=
  List.sorted_insertionSort _ _

lemma npUnique_nodup (l : List Int) : (npUnique l).Nodup :=
  ((npUnique_perm l).nodup_iff).mpr (List.nodup_dedup l)

lemma npUnique_toFinset (l : List Int) : (npUnique l).toFinset = l.toFinset := by
  rw [List.toFinset_eq_of_perm _ _ (npUnique_perm l)]
  exact List.toFinset.ext fun x => List.mem_dedup

lemma npUnique_length (l : List Int) : (npUnique l).length = l.toFinset.card := by
  rw [(npUnique_perm l).length_eq, List.card_toFinset]

lemma npUnique_mem {l : List Int} {x : Int} : x ∈ npUnique l ↔ x ∈ l := by
  rw [← List.mem_toFinset, npUnique_toFinset, List.mem_toFinset]

/-- Number of distinct values of `l` strictly below `x`. -/
def distinctLt (l : List Int) (x : Int) : Nat :=
  (l.toFinset.filter (fun v => v < x)).card

lemma idxIn_sorted_lt {x : Int} {junk : List Int} (hs : junk.Sorted (· < ·))
    (hx : x ∈ junk) :
    idxIn x junk = (junk.filter (fun v => decide (v < x))).length := by
  induction junk with
  | nil => cases hx
  | cons a rest ih =>
    rcases List.sorted_cons.mp hs with ⟨ha, hrest⟩
    by_cases hax : a = x
    · subst hax
      have h1 : rest.filter (fun v => decide (v < a)) = [] := by
        rw [List.filter_eq_nil_iff]
        intro v hv
        simpa using not_lt.mpr (le_of_lt (ha v hv))
      simp [idxIn, h1]
    · have hx' : x ∈ rest := by
        rcases List.mem_cons.mp hx with h | h
        · exact absurd h.symm hax
        · exact h
      have hax' : a < x := ha x hx'
      simp [idxIn, hax, hax', ih hrest hx']

lemma npInverse_eq_distinctLt (l : List Int) (x : Int) (hx : x ∈ l) :
    npInverse l x = distinctLt l x := by
  have hs : (npUnique l).Sorted (· < ·) :=
    (npUnique_sorted l).lt_of_le (npUnique_nodup l)
  rw [npInverse, idxIn_sorted_lt hs (npUnique_mem.mpr hx), distinctLt]
  have h1 : ((npUnique l).filter (fun v => decide (v < x))).length
      = ((npUnique l).filter (fun v => decide (v < x))).toFinset.card := by
    rw [List.card_toFinset, List.Nodup.dedup ((npUnique_nodup l).filter _)]
  rw [h1, List.toFinset_filter, npUnique_toFinset]
  congr 1
  apply Finset.filter_congr
  intro v _
  simp

/-- Adjusted local distinct-group count (`Nunique` in `unique_labels`,
utils.py lines 677-686): 0 for an empty rank; otherwise the number of local
distinct values (`len(junk)`), reduced by one when the boundary-following
value `nxt` (`topology.next()`) equals the last local value — the final
local group spills onto a later rank and must not be double-counted. -/
def nUnique (l : List Int) (nxt : BoundaryVal Int) : Nat :=
  match l.getLast? with
  | none => 0
  | some last =>
      if nxt = .val last then (npUnique l).length - 1 else (npUnique l).length

/-- `Nunique` as rank `r` computes it. -/
def rankNunique (locals : List (List Int)) (r : Nat) : Nat :=
  nUnique (locals.getD r []) (topoNext locals r)

/-- The label shift applied on rank `r`:
`numpy.sum(self.comm.allgather(Nunique)[:self.comm.rank])`. -/
def rankLabelOffset (locals : List (List Int)) (r : Nat) : Nat :=
  (((List.range locals.length).map (rankNunique locals)).take r).sum

/-- The labels `unique_labels` returns on rank `r`: each local element's
inverse index within the local sorted distinct values, plus the rank's
offset. -/
def rankLabels (locals : List (List Int)) (r : Nat) : List Nat :=
  (locals.getD r []).map
    (fun x => npInverse (locals.getD r []) x + rankLabelOffset locals r)

/-- All ranks' label arrays, in rank order. -/
def labelsAll (locals : List (List Int)) : List (List Nat) :=
  (List.range locals.length).map (rankLabels locals)

/-- numpy dtype kinds relevant to the label array. -/
inductive NpKind where
  | int64 | intp | boolean
deriving DecidableEq, Repr

def NpKind.isInteger : NpKind → Bool
  | .int64 => true
  | .intp => true
  | .boolean => false

/-- dtype of the label array `unique_labels` returns on a rank: for
non-empty input, `numpy.unique`'s inverse index array is `intp`; for empty
input the workaround `label = numpy.int64(label)` (utils.py lines 670-675)
casts the buggy boolean empty result of old numpy to `int64`. -/
def labelDtype (loc : List Int) : NpKind :=
  if loc.isEmpty then .int64 else .intp

/-- Structural restatement of `labelsAll`: process ranks left to right,
carrying the accumulated offset (the partial sum of the earlier ranks'
adjusted `Nunique` values). -/
def labelsAux (acc : Nat) : List (List Int) → List (List Nat)
  | [] => []
  | l :: rest =>
      l.map (fun x => npInverse l x + acc) ::
        labelsAux (acc + nUnique l (headBV rest.flatten)) rest

lemma rankNunique_cons (l : List Int) (rest : List (List Int)) (r : Nat) :
    rankNunique (l :: rest) (r + 1) = rankNunique rest r := by
  rw [rankNunique, rankNunique, topoNext_eq, topoNext_eq]
  rfl

lemma rankNunique_zero (l : List Int) (rest : List (List Int)) :
    rankNunique (l :: rest) 0 = nUnique l (headBV rest.flatten) := by
  rw [rankNunique, topoNext_eq]
  rfl

lemma rankLabelOffset_zero (locals : List (List Int)) :
    rankLabelOffset locals 0 = 0 := by
  simp [rankLabelOffset]

lemma rankLabelOffset_cons (l : List Int) (rest : List (List Int)) (r : Nat) :
    rankLabelOffset (l :: rest) (r + 1)
      = nUnique l (headBV rest.flatten) + rankLabelOffset rest r := by
  rw [rankLabelOffset, rankLabelOffset]
  rw [show (l :: rest).length = rest.length + 1 from rfl, List.range_succ_eq_map,
    List.map_cons, List.take_succ_cons, List.sum_cons, rankNunique_zero, List.map_map]
  have hmap : List.map (rankNunique (l :: rest) ∘ Nat.succ) (List.range rest.length)
      = List.map (rankNunique rest) (List.range rest.length) :=
    List.map_congr_left (fun a _ => rankNunique_cons l rest a)
  rw [hmap]

lemma labelsAux_eq (locals : List (List Int)) : ∀ acc : Nat,
    labelsAux acc locals = (List.range locals.length).map
      (fun r => (locals.getD r []).map
        (fun x => npInverse (locals.getD r []) x + (acc + rankLabelOffset locals r))) := by
  induction locals with
  | nil => intro acc; rfl
  | cons l rest ih =>
    intro acc
    rw [labelsAux, show (l :: rest).length = rest.length + 1 from rfl,
      List.range_succ_eq_map, List.map_cons]
    congr 1
    rw [ih (acc + nUnique l (headBV rest.flatten)), List.map_map]
    apply List.map_congr_left
    intro r _
    simp only [Function.comp_apply, List.getD_cons_succ, rankLabelOffset_cons]
    congr 1
    funext x
    omega

lemma labelsAll_eq_labelsAux (locals : List (List Int)) :
    labelsAll locals = labelsAux 0 locals := by
  rw [labelsAll, labelsAux_eq locals 0]
  apply List.map_congr_left
  intro r _
  rw [rankLabels]
  congr 1
  funext x
  omega

/-! ### Sorted-list boundary facts -/

lemma le_getLast?_of_mem {l : List Int} (hs : l.Sorted (· ≤ ·)) {x t : Int}
    (hx : x ∈ l) (ht : l.getLast? = some t) : x ≤ t := by
  induction l with
  | nil => cases hx
  | cons a rest ih =>
    rcases List.sorted_cons.mp hs with ⟨ha, hrest⟩
    cases rest with
    | nil =>
      simp only [List.getLast?_singleton, Option.some_inj] at ht
      simp only [List.mem_singleton] at hx
      omega
    | cons b rest' =>
      rw [List.getLast?_cons_cons] at ht
      rcases List.mem_cons.mp hx with rfl | hx'
      · exact ha t (List.mem_of_mem_getLast? ht)
      · exact ih hrest hx' ht

lemma head?_le_of_mem {l : List Int} (hs : l.Sorted (· ≤ ·)) {x h0 : Int}
    (hx : x ∈ l) (hh : l.head? = some h0) : h0 ≤ x := by
  cases l with
  | nil => cases hx
  | cons a rest =>
    simp only [List.head?_cons, Option.some_inj] at hh
    subst hh
    rcases List.mem_cons.mp hx with rfl | hx'
    · exact le_refl _
    · exact List.rel_of_sorted_cons hs x hx'

/-- For a sorted prefix bounded above by `h`, the boundary value `h` occurs
in the prefix iff it is the prefix's last element. -/
lemma mem_iff_getLast?_of_ub {pre : List Int} (hpre : pre.Sorted (· ≤ ·))
    {h : Int} (hub : ∀ v ∈ pre, v ≤ h) :
    h ∈ pre.toFinset ↔ pre.getLast? = some h := by
  constructor
  · intro hmem
    have hmem' : h ∈ pre := List.mem_toFinset.mp hmem
    have hpne : pre ≠ [] := List.ne_nil_of_mem hmem'
    have ht := List.getLast?_eq_getLast pre hpne
    have h1 : h ≤ pre.getLast hpne := le_getLast?_of_mem hpre hmem' ht
    have h2 : pre.getLast hpne ≤ h := hub _ (List.getLast_mem hpne)
    rw [ht, Option.some_inj]
    omega
  · intro ht
    exact List.mem_toFinset.mpr (List.mem_of_mem_getLast? ht)

/-- The overlap of a prefix bounded above by `h` with a block whose values
are bounded below by its head `h` is exactly the shared boundary value (if
present in the prefix). -/
lemma inter_boundary {A B : Finset Int} {h : Int}
    (hAle : ∀ v ∈ A, v ≤ h) (hBge : ∀ v ∈ B, h ≤ v) (hhB : h ∈ B) :
    A ∩ B = if h ∈ A then {h} else ∅ := by
  ext v
  constructor
  · intro hv
    rcases Finset.mem_inter.mp hv with ⟨hvA, hvB⟩
    have hveq : v = h := le_antisymm (hAle v hvA) (hBge v hvB)
    subst hveq
    rw [if_pos hvA]
    exact Finset.mem_singleton_self v
  · intro hv
    by_cases hmem : h ∈ A
    · rw [if_pos hmem] at hv
      rw [Finset.mem_singleton.mp hv]
      exact Finset.mem_inter.mpr ⟨hmem, hhB⟩
    · rw [if_neg hmem] at hv
      cases Finset.not_mem_empty v hv

/-- Accounting of the shared-boundary flag between the processed prefix and
the remainder of the global array ("is the final distinct group of the
prefix continued in the remainder?"). -/
def carryOf (pre rest : List Int) : Nat :=
  if rest.head? = pre.getLast? ∧ pre ≠ [] then 1 else 0

lemma carryOf_cons_block (pre : List Int) (h : Int) (tl suf : List Int)
    (hpre : pre.Sorted (· ≤ ·)) (hub : ∀ v ∈ pre, v ≤ h) :
    carryOf pre ((h :: tl) ++ suf) = if h ∈ pre.toFinset then 1 else 0 := by
  rw [carryOf]
  have hhd : ((h :: tl) ++ suf).head? = some h := rfl
  rw [hhd]
  by_cases hmem : h ∈ pre.toFinset
  · have hlast := (mem_iff_getLast?_of_ub hpre hub).mp hmem
    rw [if_pos ⟨hlast.symm, List.ne_nil_of_mem (List.mem_toFinset.mp hmem)⟩,
      if_pos hmem]
  · rw [if_neg, if_neg hmem]
    intro hcond
    exact hmem ((mem_iff_getLast?_of_ub hpre hub).mpr hcond.1.symm)

lemma headBV_eq_val_iff {suf : List Int} {t : Int} :
    headBV suf = .val t ↔ suf.head? = some t := by
  cases suf with
  | nil => simp [headBV]
  | cons a s' => simp [headBV]

/-! ### The per-element label characterisation and the offset invariant -/

/-- On a globally sorted array, each local element's label — its local
inverse index plus the accumulated offset — equals the number of distinct
global values strictly below its value. -/
lemma label_char (pre l suf : List Int) (acc : Nat)
    (hsort : (pre ++ (l ++ suf)).Sorted (· ≤ ·))
    (hinv : acc + carryOf pre (l ++ suf) = pre.toFinset.card)
    {x : Int} (hx : x ∈ l) :
    npInverse l x + acc = distinctLt (pre ++ (l ++ suf)) x := by
  rcases List.pairwise_append.mp hsort with ⟨hpre, hls, hcross⟩
  rcases List.pairwise_append.mp hls with ⟨hl, hsuf, hcross2⟩
  cases l with
  | nil => cases hx
  | cons h tl =>
  have hhl : h ∈ h :: tl := List.mem_cons_self h tl
  have hub : ∀ v ∈ pre, v ≤ h := fun v hv => hcross v hv h (List.mem_append_left _ hhl)
  have hAle : ∀ v ∈ pre.toFinset, v ≤ h := fun v hv => hub v (List.mem_toFinset.mp hv)
  have hBge : ∀ v ∈ (h :: tl).toFinset, h ≤ v := by
    intro v hv
    rcases List.mem_cons.mp (List.mem_toFinset.mp hv) with rfl | hv'
    · exact le_refl _
    · exact List.rel_of_sorted_cons hl v hv'
  have hhx : h ≤ x := hBge x (List.mem_toFinset.mpr hx)
  have hsufx : ∀ w ∈ suf, x ≤ w := fun w hw => hcross2 x hx w hw
  have hcar := carryOf_cons_block pre h tl suf hpre hub
  -- the distinct values below x in the whole array are those of the prefix
  -- and the local block
  have hGfin : (pre ++ ((h :: tl) ++ suf)).toFinset
      = pre.toFinset ∪ ((h :: tl).toFinset ∪ suf.toFinset) := by
    rw [List.toFinset_append, List.toFinset_append]
  have hCempty : suf.toFinset.filter (fun v => v < x) = ∅ := by
    rw [Finset.filter_eq_empty_iff]
    intro w hw
    exact not_lt.mpr (hsufx w (List.mem_toFinset.mp hw))
  have hsplit : distinctLt (pre ++ ((h :: tl) ++ suf)) x
      = ((pre.toFinset.filter (fun v => v < x))
          ∪ ((h :: tl).toFinset.filter (fun v => v < x))).card := by
    rw [distinctLt, hGfin, Finset.filter_union, Finset.filter_union, hCempty,
      Finset.union_empty]
  have hFB : ((h :: tl).toFinset.filter (fun v => v < x)).card = npInverse (h :: tl) x :=
    (npInverse_eq_distinctLt (h :: tl) x hx).symm
  have hcu := Finset.card_union_add_card_inter
    (pre.toFinset.filter (fun v => v < x)) ((h :: tl).toFinset.filter (fun v => v < x))
  rcases eq_or_lt_of_le hhx with rfl | hlt
  · -- x is the head of the local block
    have hFA : (pre.toFinset.filter (fun v => v < h)).card
        + (if h ∈ pre.toFinset then 1 else 0) = pre.toFinset.card := by
      have hneg : pre.toFinset.filter (fun v => ¬ v < h)
          = pre.toFinset.filter (fun v => v = h) := by
        apply Finset.filter_congr
        intro v hv
        have := hAle v hv
        constructor
        · intro hnv; omega
        · intro hv'; omega
      have := Finset.filter_card_add_filter_neg_card_eq_card
        (s := pre.toFinset) (p := fun v => v < h)
      rw [hneg, Finset.filter_eq', apply_ite Finset.card, Finset.card_singleton,
        Finset.card_empty] at this
      exact this
    have hdisj : pre.toFinset.filter (fun v => v < h)
        ∩ (h :: tl).toFinset.filter (fun v => v < h) = ∅ := by
      rw [Finset.eq_empty_iff_forall_not_mem]
      intro v hv
      rcases Finset.mem_inter.mp hv with ⟨_, hvB⟩
      rcases Finset.mem_filter.mp hvB with ⟨hvB', hvlt⟩
      exact absurd hvlt (not_lt.mpr (hBge v hvB'))
    rw [hsplit]
    rw [hdisj, Finset.card_empty] at hcu
    rw [hcar] at hinv
    by_cases hmem : h ∈ pre.toFinset
    · rw [if_pos hmem] at hinv hFA
      omega
    · rw [if_neg hmem] at hinv hFA
      omega
  · -- head of the local block is strictly below x
    have hFA : pre.toFinset.filter (fun v => v < x) = pre.toFinset :=
      Finset.filter_true_of_mem (fun v hv => lt_of_le_of_lt (hAle v hv) hlt)
    have hinter : pre.toFinset.filter (fun v => v < x)
        ∩ (h :: tl).toFinset.filter (fun v => v < x)
        = if h ∈ pre.toFinset then {h} else ∅ := by
      rw [hFA]
      have hBgef : ∀ v ∈ (h :: tl).toFinset.filter (fun v => v < x), h ≤ v :=
        fun v hv => hBge v (Finset.mem_filter.mp hv).1
      have hhBf : h ∈ (h :: tl).toFinset.filter (fun v => v < x) :=
        Finset.mem_filter.mpr ⟨List.mem_toFinset.mpr hhl, hlt⟩
      exact inter_boundary hAle hBgef hhBf
    rw [hsplit]
    rw [hinter, apply_ite Finset.card, Finset.card_singleton, Finset.card_empty] at hcu
    rw [hcar] at hinv
    rw [hFA] at hcu ⊢
    by_cases hmem : h ∈ pre.toFinset
    · rw [if_pos hmem] at hinv hcu
      omega
    · rw [if_neg hmem] at hinv hcu
      omega

/-- Stepping the offset invariant across one rank: adding the rank's
adjusted `Nunique` to the accumulator preserves
"accumulator + shared-boundary flag = number of distinct values seen". -/
lemma carry_step (pre l suf : List Int) (acc : Nat)
    (hsort : (pre ++ (l ++ suf)).Sorted (· ≤ ·))
    (hinv : acc + carryOf pre (l ++ suf) = pre.toFinset.card) :
    (acc + nUnique l (headBV suf)) + carryOf (pre ++ l) suf
      = (pre ++ l).toFinset.card := by
  rcases List.pairwise_append.mp hsort with ⟨hpre, hls, hcross⟩
  rcases List.pairwise_append.mp hls with ⟨hl, _hsuf, _hcross2⟩
  cases l with
  | nil =>
    simp only [nUnique, List.getLast?_nil, List.append_nil, Nat.add_zero]
    simpa using hinv
  | cons h tl =>
  have hhl : h ∈ h :: tl := List.mem_cons_self h tl
  have hub : ∀ v ∈ pre, v ≤ h := fun v hv => hcross v hv h (List.mem_append_left _ hhl)
  have hAle : ∀ v ∈ pre.toFinset, v ≤ h := fun v hv => hub v (List.mem_toFinset.mp hv)
  have hBge : ∀ v ∈ (h :: tl).toFinset, h ≤ v := by
    intro v hv
    rcases List.mem_cons.mp (List.mem_toFinset.mp hv) with rfl | hv'
    · exact le_refl _
    · exact List.rel_of_sorted_cons hl v hv'
  have hcar := carryOf_cons_block pre h tl suf hpre hub
  have hne : (h :: tl) ≠ ([] : List Int) := by simp
  have htau := List.getLast?_eq_getLast (h :: tl) hne
  set t := (h :: tl).getLast hne with htdef
  have hsplit : (pre ++ (h :: tl)).toFinset = pre.toFinset ∪ (h :: tl).toFinset :=
    List.toFinset_append
  have hcu := Finset.card_union_add_card_inter pre.toFinset (h :: tl).toFinset
  have hinter : pre.toFinset ∩ (h :: tl).toFinset = if h ∈ pre.toFinset then {h} else ∅ :=
    inter_boundary hAle hBge (List.mem_toFinset.mpr hhl)
  rw [hinter, apply_ite Finset.card, Finset.card_singleton, Finset.card_empty] at hcu
  have hnu : nUnique (h :: tl) (headBV suf)
      = if headBV suf = .val t then (h :: tl).toFinset.card - 1
        else (h :: tl).toFinset.card := by
    rw [nUnique, htau]
    simp only [npUnique_length]
  have hcarR : carryOf (pre ++ (h :: tl)) suf = if headBV suf = .val t then 1 else 0 := by
    rw [carryOf]
    have hlastapp : (pre ++ h :: tl).getLast? = some t := by
      rw [List.getLast?_append_cons, htau]
    rw [hlastapp]
    by_cases hsp : headBV suf = .val t
    · rw [if_pos hsp, if_pos ⟨headBV_eq_val_iff.mp hsp, by simp⟩]
    · rw [if_neg hsp, if_neg]
      intro hcond
      exact hsp (headBV_eq_val_iff.mpr hcond.1)
  have hBpos : 1 ≤ (h :: tl).toFinset.card :=
    Finset.card_pos.mpr ⟨h, List.mem_toFinset.mpr hhl⟩
  rw [hsplit, hnu, hcarR]
  rw [hcar] at hinv
  by_cases hmem : h ∈ pre.toFinset <;> by_cases hsp : headBV suf = .val t <;>
    simp only [hmem, hsp, if_pos, if_neg, if_true, if_false] at hinv hcu ⊢ <;>
    omega

/-- The labels produced by the offset recursion are exactly
"number of distinct global values strictly below the element's value". -/
lemma labelsAux_flatten (rest : List (List Int)) : ∀ (pre : List Int) (acc : Nat),
    (pre ++ rest.flatten).Sorted (· ≤ ·) →
    acc + carryOf pre rest.flatten = pre.toFinset.card →
    (labelsAux acc rest).flatten
      = rest.flatten.map (fun x => distinctLt (pre ++ rest.flatten) x) := by
  induction rest with
  | nil => intro pre acc _ _; rfl
  | cons l rest' ih =>
    intro pre acc hsort hinv
    rw [List.flatten_cons] at hsort hinv ⊢
    rw [labelsAux, List.flatten_cons, List.map_append]
    congr 1
    · apply List.map_congr_left
      intro x hx
      exact label_char pre l rest'.flatten acc hsort hinv hx
    · have hsort' : ((pre ++ l) ++ rest'.flatten).Sorted (· ≤ ·) := by
        rwa [List.append_assoc]
      have hinv' := carry_step pre l rest'.flatten acc hsort hinv
      rw [ih (pre ++ l) (acc + nUnique l (headBV rest'.flatten)) hsort' hinv']
      apply List.map_congr_left
      intro x _
      rw [List.append_assoc]

/-! ### Consequences of the label characterisation -/

lemma distinctLt_lt_card {g : List Int} {x : Int} (hx : x ∈ g) :
    distinctLt g x < g.toFinset.card := by
  apply Finset.card_lt_card
  rw [Finset.ssubset_iff_of_subset (Finset.filter_subset _ _)]
  exact ⟨x, List.mem_toFinset.mpr hx,
    fun hmem => lt_irrefl x (Finset.mem_filter.mp hmem).2⟩

lemma distinctLt_mono {g : List Int} {x y : Int} (hxy : x ≤ y) :
    distinctLt g x ≤ distinctLt g y := by
  apply Finset.card_le_card
  intro v hv
  rcases Finset.mem_filter.mp hv with ⟨h1, h2⟩
  exact Finset.mem_filter.mpr ⟨h1, lt_of_lt_of_le h2 hxy⟩

lemma distinctLt_strict {g : List Int} {x y : Int} (hx : x ∈ g) (hxy : x < y) :
    distinctLt g x < distinctLt g y := by
  apply Finset.card_lt_card
  rw [Finset.ssubset_iff_of_subset]
  · exact ⟨x, Finset.mem_filter.mpr ⟨List.mem_toFinset.mpr hx, hxy⟩,
      fun hmem => lt_irrefl x (Finset.mem_filter.mp hmem).2⟩
  · intro v hv
    rcases Finset.mem_filter.mp hv with ⟨h1, h2⟩
    exact Finset.mem_filter.mpr ⟨h1, lt_trans h2 hxy⟩

lemma distinctLt_surj (g : List Int) {k : Nat} (hk : k < g.toFinset.card) :
    ∃ x ∈ g, distinctLt g x = k := by
  have hlen : (npUnique g).length = g.toFinset.card := npUnique_length g
  have hklen : k < (npUnique g).length := by omega
  have hstrict : (npUnique g).Sorted (· < ·) :=
    (npUnique_sorted g).lt_of_le (npUnique_nodup g)
  refine ⟨(npUnique g)[k], npUnique_mem.mp (List.getElem_mem hklen), ?_⟩
  have hfins : g.toFinset.filter (fun v => v < (npUnique g)[k])
      = ((npUnique g).take k).toFinset := by
    ext v
    rw [Finset.mem_filter, List.mem_toFinset, List.mem_toFinset,
      ← npUnique_mem (l := g)]
    constructor
    · rintro ⟨hvL, hvlt⟩
      rcases List.mem_iff_getElem.mp hvL with ⟨j, hj, rfl⟩
      have hjk : j < k := by
        by_contra hge
        have hkj : k ≤ j := not_lt.mp hge
        have : (npUnique g)[k] ≤ (npUnique g)[j] := by
          rcases Nat.eq_or_lt_of_le hkj with rfl | hlt
          · exact le_refl _
          · have := hstrict.get_strictMono
              (show (⟨k, hklen⟩ : Fin (npUnique g).length) < ⟨j, hj⟩ from hlt)
            simpa [List.get_eq_getElem] using le_of_lt this
        omega
      exact List.mem_take_iff_getElem.mpr ⟨j, by omega, rfl⟩
    · intro hvtake
      rcases List.mem_take_iff_getElem.mp hvtake with ⟨j, hj, rfl⟩
      have hjlen : j < (npUnique g).length := by
        have h1 : j < k ⊓ (npUnique g).length := hj
        omega
      constructor
      · exact List.getElem_mem hjlen
      · have h1 : j < k ⊓ (npUnique g).length := hj
        have := hstrict.get_strictMono
          (show (⟨j, hjlen⟩ : Fin (npUnique g).length) < ⟨k, hklen⟩ from by
            simp only [Fin.mk_lt_mk]
            omega)
        simpa [List.get_eq_getElem] using this
  rw [distinctLt, hfins, List.card_toFinset,
    List.Nodup.dedup ((npUnique_nodup g).sublist (List.take_sublist k _)),
    List.length_take]
  omega

/-- C4: on a globally sorted `DistributedArray` of scalar type,
`unique_labels` returns on each rank labels whose global concatenation (in
rank-then-local order) assigns to each element the number of distinct
global values strictly below its value.  Consequently, with `K` the number
of distinct global values: every label lies in `0..K-1`; the labels are
globally non-decreasing; two elements receive the same label iff their
values are equal (also when a run of one value is split across a rank
boundary); and every label in `0..K-1` occurs. -/
theorem unique_labels_correct (locals : List (List Int))
    (hsort : locals.flatten.Sorted (· ≤ ·)) :
    ((labelsAll locals).flatten
      = locals.flatten.map (fun x => distinctLt locals.flatten x)) ∧
    (∀ n ∈ (labelsAll locals).flatten, n < locals.flatten.toFinset.card) ∧
    ((labelsAll locals).flatten.Sorted (· ≤ ·)) ∧
    (∀ i j : Nat, ∀ _hi : i < locals.flatten.length, ∀ _hj : j < locals.flatten.length,
      ((labelsAll locals).flatten.getD i 0 = (labelsAll locals).flatten.getD j 0
        ↔ locals.flatten.getD i 0 = locals.flatten.getD j 0)) ∧
    (∀ k < locals.flatten.toFinset.card, k ∈ (labelsAll locals).flatten) := by
  have hchar : (labelsAll locals).flatten
      = locals.flatten.map (fun x => distinctLt locals.flatten x) := by
    rw [labelsAll_eq_labelsAux]
    have h0 : (0 : Nat) + carryOf [] locals.flatten = ([] : List Int).toFinset.card := by
      simp [carryOf]
    have := labelsAux_flatten locals [] 0 (by simpa using hsort) h0
    simpa using this
  have hlen : (labelsAll locals).flatten.length = locals.flatten.length := by
    rw [hchar, List.length_map]
  refine ⟨hchar, ?_, ?_, ?_, ?_⟩
  · intro n hn
    rw [hchar] at hn
    rcases List.mem_map.mp hn with ⟨x, hx, rfl⟩
    exact distinctLt_lt_card hx
  · rw [hchar]
    rw [List.Sorted, List.pairwise_map]
    exact hsort.imp (fun hab => distinctLt_mono hab)
  · intro i j hi hj
    rw [hchar, List.getD_eq_getElem _ _ (by rw [List.length_map]; exact hi),
      List.getD_eq_getElem _ _ (by rw [List.length_map]; exact hj),
      List.getElem_map, List.getElem_map,
      List.getD_eq_getElem _ _ hi, List.getD_eq_getElem _ _ hj]
    constructor
    · intro heq
      by_contra hne
      rcases lt_or_gt_of_ne hne with hlt | hgt
      · exact absurd heq
          (Nat.ne_of_lt (distinctLt_strict (List.getElem_mem hi) hlt))
      · exact absurd heq.symm
          (Nat.ne_of_lt (distinctLt_strict (List.getElem_mem hj) hgt))
    · intro heq
      rw [heq]
  · intro k hk
    rcases distinctLt_surj locals.flatten hk with ⟨x, hx, hxk⟩
    rw [hchar]
    exact List.mem_map.mpr ⟨x, hx, hxk⟩

/-- Witness for `unique_labels_correct`: two ranks `[1, 5]` and `[5, 7]`
with the run of `5` split across the rank boundary; the labels come out as
`[0, 1]` and `[1, 2]`. -/
theorem unique_labels_correct_witness :
    ([[ (1 : Int), 5 ], [5, 7]].flatten.Sorted (· ≤ ·)) ∧
    (labelsAll [[(1 : Int), 5], [5, 7]] = [[0, 1], [1, 2]] ∧
     (labelsAll [[(1 : Int), 5], [5, 7]]).flatten
      = [[(1 : Int), 5], [5, 7]].flatten.map
          (fun x => distinctLt [[(1 : Int), 5], [5, 7]].flatten x)) :=
  ⟨by decide, by decide,
    (unique_labels_correct [[(1 : Int), 5], [5, 7]] (by decide)).1⟩

/-! ### Empty ranks in unique_labels (claim C10) -/

lemma flatten_insertIdx_nil (k : Nat) (L : List (List Int)) :
    (L.insertIdx k ([] : List Int)).flatten = L.flatten := by
  induction k generalizing L with
  | zero => rw [List.insertIdx_zero, List.flatten_cons, List.nil_append]
  | succ k ih =>
    cases L with
    | nil => rw [List.insertIdx_succ_nil]
    | cons l rest =>
      rw [List.insertIdx_succ_cons, List.flatten_cons, List.flatten_cons, ih]

lemma labelsAux_insertIdx (k : Nat) (L : List (List Int)) : ∀ acc : Nat,
    labelsAux acc (L.insertIdx k []) = (labelsAux acc L).insertIdx k [] := by
  induction k generalizing L with
  | zero =>
    intro acc
    rw [List.insertIdx_zero, List.insertIdx_zero]
    simp [labelsAux, nUnique]
  | succ k ih =>
    intro acc
    cases L with
    | nil => rw [List.insertIdx_succ_nil]; rfl
    | cons l rest =>
      rw [List.insertIdx_succ_cons, labelsAux, labelsAux, flatten_insertIdx_nil,
        List.insertIdx_succ_cons, ih]

/-- C10: a rank whose local array is empty returns a length-0 label array
whose dtype is `int64` — an integer, never boolean, thanks to the
`numpy.int64` cast workaround — and contributes an adjusted distinct-group
count (`Nunique`) of exactly 0 to the allgather-plus-prefix-sum offset;
inserting an empty rank at any position leaves every other rank's labels
unchanged. -/
theorem unique_labels_empty_rank (locals : List (List Int)) :
    (∀ r : Nat, locals.getD r [] = [] →
      rankLabels locals r = [] ∧ rankNunique locals r = 0 ∧
      labelDtype (locals.getD r []) = NpKind.int64) ∧
    (∀ l : List Int, (labelDtype l).isInteger = true) ∧
    (∀ k : Nat, labelsAll (locals.insertIdx k []) = (labelsAll locals).insertIdx k []) := by
  refine ⟨?_, ?_, ?_⟩
  · intro r hr
    refine ⟨?_, ?_, ?_⟩
    · rw [rankLabels, hr]; rfl
    · rw [rankNunique, hr]; rfl
    · rw [hr]; rfl
  · intro l
    cases l <;> rfl
  · intro k
    rw [labelsAll_eq_labelsAux, labelsAll_eq_labelsAux, labelsAux_insertIdx]

/-! ## DistributedArray.bincount (utils.py lines 691-762) -/

/-- `numpy.bincount` on a list of non-negative integers: entry `v` counts
the occurrences of value `v`; the output length is `max + 1`, or 0 for
empty input. -/
def npBincount (xs : List Int) : List Nat :=
  match xs with
  | [] => []
  | _ :: _ =>
      (List.range ((xs.map Int.toNat).foldr max 0 + 1)).map
        (fun v => xs.count (v : Int))

/-- The bin offset on rank `r` (utils.py lines 721-731): counting starts at
`prev` when this rank's first value continues the previous rank's last bin,
at `prev + 1` otherwise, and at 0 when all ranks before are empty. -/
def binOffset (locals : List (List Int)) (r : Nat) : Int :=
  match topoPrev locals r with
  | .emptyRank => 0
  | .val p =>
      if (locals.getD r []) ≠ [] ∧ p ≠ (locals.getD r []).headD 0 then p + 1 else p

/-- The raw local histogram on rank `r`: `numpy.bincount(local - offset)`;
`none` models numpy raising on a negative shifted value. -/
def rankLocalBincount (locals : List (List Int)) (r : Nat) : Option (List Nat) :=
  let shifted := (locals.getD r []).map (fun x => x - binOffset locals r)
  if shifted.all (fun x => decide (0 ≤ x)) then some (npBincount shifted) else none

/-- The cross-rank merge step of `bincount` on rank `r` (utils.py lines
746-761): add every lower rank's trailing bin whose value equals this
rank's first value into this rank's leading bin, symmetrically add higher
ranks' leading bins matching this rank's last value into the trailing bin,
and, when `shared_edges` is false and a lower rank shares this rank's
leading bin, drop that bin locally. -/
def mergeRank (locals : List (List Int)) (Ns : List (List Nat)) (sharedEdges : Bool)
    (r : Nat) : List Nat :=
  match Ns.getD r [] with
  | [] => []
  | c :: restN =>
    let l := locals.getD r []
    let lowAdd := ((List.range r).map (fun i =>
        if tailBV (locals.getD i []) = .val (l.headD 0)
        then (Ns.getD i []).getLastD 0 else 0)).sum
    let highAdd := (((List.range locals.length).drop (r + 1)).map (fun i =>
        if headBV (locals.getD i []) = .val (l.getLastD 0)
        then (Ns.getD i []).headD 0 else 0)).sum
    let anyshared := (List.range r).any (fun i =>
        decide (tailBV (locals.getD i []) = .val (l.headD 0)))
    let N1 : List Nat := (c + lowAdd) :: restN
    let N2 := N1.dropLast ++ [N1.getLastD 0 + highAdd]
    if sharedEdges then N2
    else if anyshared = true then N2.drop 1 else N2

/-- The collective `bincount(weights=None, local=False, shared_edges)`:
every rank's merged count array, or `none` when numpy raises. -/
def bincountAll (locals : List (List Int)) (sharedEdges : Bool) :
    Option (List (List Nat)) :=
  match (List.range locals.length).mapM (rankLocalBincount locals) with
  | none => none
  | some Ns => some ((List.range locals.length).map (mergeRank locals Ns sharedEdges))

/-- C5: for the globally sorted input `[0,0,1] | [1,2]`,
`bincount(shared_edges=True)` gives per-rank counts `[2,2] | [2,1]` over
bin values `0..1 | 1..2`; counting each distinct bin once (the shared bin
for value 1 once) reproduces the global histogram `[2,2,1]`;
`bincount(shared_edges=False)` keeps the shared bin only on the left rank:
`[2,2] | [1]`, whose plain concatenation is the global histogram. -/
theorem bincount_shared_edges_example :
    binOffset [[(0 : Int), 0, 1], [1, 2]] 0 = 0 ∧
    binOffset [[(0 : Int), 0, 1], [1, 2]] 1 = 1 ∧
    bincountAll [[(0 : Int), 0, 1], [1, 2]] true = some [[2, 2], [2, 1]] ∧
    ([2, 2] ++ ([2, 1].drop 1) : List Nat)
      = [[[(0 : Int), 0, 1], [1, 2]].flatten.count 0,
         [[(0 : Int), 0, 1], [1, 2]].flatten.count 1,
         [[(0 : Int), 0, 1], [1, 2]].flatten.count 2] ∧
    bincountAll [[(0 : Int), 0, 1], [1, 2]] false = some [[2, 2], [1]] ∧
    ([2, 2] ++ [1] : List Nat)
      = [[[(0 : Int), 0, 1], [1, 2]].flatten.count 0,
         [[(0 : Int), 0, 1], [1, 2]].flatten.count 1,
         [[(0 : Int), 0, 1], [1, 2]].flatten.count 2] := by
  decide

/-! ## GatherArray / ScatterArray (utils.py lines 123-343)

numpy dtype descriptors are either flat scalar types (identified by their
type char, with `"O"` the object dtype) or structured (`'V'`) dtypes with
named fields, which recurse.  Array elements are scalars or records.  The
nested field lists are represented by the mutual types `DtypeFields` /
`ValList` so that all functions below are structural recursions. -/

mutual
inductive Dtype where
  | scalar (ch : String) : Dtype
  | compound (fields : DtypeFields) : Dtype
deriving DecidableEq, Repr
inductive DtypeFields where
  | nil : DtypeFields
  | cons (name : String) (dt : Dtype) (rest : DtypeFields) : DtypeFields
deriving DecidableEq, Repr
end

mutual
inductive Val where
  | scalar (x : Int) : Val
  | record (fields : ValList) : Val
deriving DecidableEq, Repr
inductive ValList where
  | nil : ValList
  | cons (v : Val) (rest : ValList) : ValList
deriving DecidableEq, Repr
end

/-- A rank's numpy array: element dtype, trailing shape `shape[1:]`, and
the rows along the first (striped) axis. -/
structure NpArray where
  dtype : Dtype
  trailing : List Nat
  rows : List Val
deriving DecidableEq, Repr

def DtypeFields.names : DtypeFields → List String
  | .nil => []
  | .cons n _ rest => n :: rest.names

def DtypeFields.length : DtypeFields → Nat
  | .nil => 0
  | .cons _ _ rest => rest.length + 1

/-- Position of the first field called `name` (`dtype.names.index(name)`). -/
def DtypeFields.idxOfName : DtypeFields → String → Nat
  | .nil, _ => 0
  | .cons n _ rest, name => if n = name then 0 else rest.idxOfName name + 1

/-- The dtype of the field at position `i`. -/
def DtypeFields.dtypeAt : DtypeFields → Nat → Dtype
  | .nil, _ => .scalar "d"
  | .cons _ d _, 0 => d
  | .cons _ _ rest, i + 1 => rest.dtypeAt i

/-- The dtype of the first field called `name` (`dtype[name]`). -/
def DtypeFields.findDtype : DtypeFields → String → Option Dtype
  | .nil, _ => none
  | .cons n d rest, name => if n = name then some d else rest.findDtype name

/-- `(name, fdt)` occurs among the fields. -/
def DtypeFields.HasPair : DtypeFields → String → Dtype → Prop
  | .nil, _, _ => False
  | .cons n d rest, name, fdt => (n = name ∧ d = fdt) ∨ rest.HasPair name fdt

/-- Top-level test `any(dtypes[0][name] == 'O' for name in dtypes[0].names)`. -/
def DtypeFields.anyObject : DtypeFields → Bool
  | .nil => false
  | .cons _ d rest => decide (d = .scalar "O") || rest.anyObject

def ValList.length : ValList → Nat
  | .nil => 0
  | .cons _ rest => rest.length + 1

/-- Component at position `i` of a record's field list. -/
def ValList.get : ValList → Nat → Val
  | .nil, _ => .scalar 0
  | .cons v _, 0 => v
  | .cons _ rest, i + 1 => rest.get i

def ValList.ofList : List Val → ValList
  | [] => .nil
  | v :: rest => .cons v (ValList.ofList rest)

mutual
/-- A value is well-formed at a dtype (a scalar at a scalar dtype, a record
whose components match the fields at a structured dtype). -/
def conformsB : Dtype → Val → Bool
  | .scalar _, .scalar _ => true
  | .compound fields, .record vs => conformsFieldsB fields vs
  | _, _ => false
def conformsFieldsB : DtypeFields → ValList → Bool
  | .nil, .nil => true
  | .cons _ d fs, .cons v vs => conformsB d v && conformsFieldsB fs vs
  | _, _ => false
end

mutual
/-- No object (`'O'`) dtype anywhere in the descriptor. -/
def noObjectB : Dtype → Bool
  | .scalar ch => decide (ch ≠ "O")
  | .compound fields => noObjectFieldsB fields
def noObjectFieldsB : DtypeFields → Bool
  | .nil => true
  | .cons _ d rest => noObjectB d && noObjectFieldsB rest
end

mutual
/-- Field names are distinct at every nesting level (numpy enforces this
when a structured dtype is built). -/
def namesNodupB : Dtype → Bool
  | .scalar _ => true
  | .compound fields => decide fields.names.Nodup && namesNodupFieldsB fields
def namesNodupFieldsB : DtypeFields → Bool
  | .nil => true
  | .cons _ d rest => namesNodupB d && namesNodupFieldsB rest
end

/-- `set(dt.names)` for the structured-field check; `none` when the dtype
is not structured (`dt.names` is `None`, on which `set(...)` raises — also
an error, so any `none` here makes the mismatch check fail). -/
def namesSet : Dtype → Option (Finset String)
  | .scalar _ => none
  | .compound fs => some fs.names.toFinset

/-- Extraction of a record's component at position `i` (rows of `data[name]`). -/
def extractValAt (i : Nat) : Val → Val
  | .record vs => vs.get i
  | .scalar x => .scalar x

/-- `data[name]` on a structured array: the column of the field called
`name`, located in this rank's own dtype descriptor; a field column has
trailing shape `()`. -/
def extractCol (name : String) (b : NpArray) : NpArray :=
  match b.dtype with
  | .compound fs =>
      ⟨fs.dtypeAt (fs.idxOfName name), [],
        b.rows.map (extractValAt (fs.idxOfName name))⟩
  | .scalar _ => b

/-- Writing the gathered field columns back into the pre-allocated
structured receive buffer (`recvbuffer[name] = d`): row `i` of the result
is the record of all columns' entries `i`. -/
def reassemble (cols : List (List Val)) (n : Nat) : List Val :=
  (List.range n).map
    (fun i => .record (ValList.ofList (cols.map (fun c => c.getD i (.scalar 0)))))

/-- The `root` argument of `GatherArray`: a destination rank, or `Ellipsis`
("broadcast the result to all ranks", i.e. `Allgatherv`). -/
inductive GatherRoot where
  | rank (r : Nat)
  | ellipsis
deriving DecidableEq, Repr

/-- The shape/dtype mismatch flags of the flat branch (utils.py lines
191-198): `bad_shape`/`bad_dtype` are computed against position 0 of the
allgathered lists on the root rank(s) and are `None` elsewhere; they are
then distributed by `comm.bcast(...)`, whose root argument is left at its
default of rank 0.  Hence the flags every rank receives are rank 0's
values: the real flags when `root` is 0 or Ellipsis, `None` (falsy,
modelled `false`) otherwise. -/
def bcastFlags (bufs : List NpArray) (root : GatherRoot) : Bool × Bool :=
  let trailings := bufs.map (fun b => b.trailing)
  let dtypes := bufs.map (fun b => b.dtype)
  let computed :=
    ((trailings.drop 1).any (fun s => decide (s ≠ trailings.headD [])),
     (dtypes.drop 1).any (fun dt => decide (dt ≠ dtypes.headD (.scalar "d"))))
  match root with
  | .ellipsis => computed
  | .rank r => if r = 0 then computed else (false, false)

mutual
/-- `GatherArray(data, comm, root)` (utils.py lines 123-241), modelled
collectively on the per-rank inputs `bufs`; the result is the rows of the
gathered array delivered to the destination rank(s), or the error the
ranks raise.  The structured recursion is driven by `dtypes[0]` — rank 0's
descriptor — as in the source; `Gatherv`/`Allgatherv` with the allgathered
counts and their exclusive-prefix-sum offsets deliver the per-rank rows
concatenated in rank order. -/
def gatherByDtype : Dtype → List NpArray → GatherRoot → Except String (List Val)
  | .compound fields, bufs, root =>
      -- structured branch (lines 158-185)
      if (bufs.map (fun b => b.dtype)).any
          (fun d => decide (namesSet d ≠ some fields.names.toFinset))
      then .error "mismatch between data type fields in structured data"
      else if fields.anyObject
      then .error "object data types ('O') not allowed in structured data in GatherArray"
      else
        match gatherFieldCols fields bufs root with
        | .error e => .error e
        | .ok cols =>
            .ok (reassemble cols ((bufs.map (fun b => b.rows.length)).sum))
  | .scalar ch, bufs, root =>
      -- flat branch (lines 187-241)
      if ch = "O"
      then .error "object data types ('O') not allowed in structured data in GatherArray"
      else
        match bcastFlags bufs root with
        | (true, _) => .error "mismatch between shape[1:] across ranks in GatherArray"
        | (false, true) => .error "mismatch between dtypes across ranks in GatherArray"
        | (false, false) => .ok ((bufs.map (fun b => b.rows)).flatten)
/-- The per-field recursion
`for name in dtypes[0].names: d = GatherArray(data[name], comm, root)`. -/
def gatherFieldCols : DtypeFields → List NpArray → GatherRoot → Except String (List (List Val))
  | .nil, _, _ => .ok []
  | .cons name fdt rest, bufs, root =>
      match gatherByDtype fdt (bufs.map (extractCol name)) root with
      | .error e => .error e
      | .ok c =>
          match gatherFieldCols rest bufs root with
          | .error e => .error e
          | .ok cs => .ok (c :: cs)
end

def GatherArrayG (bufs : List NpArray) (root : GatherRoot) : Except String (List Val) :=
  match bufs.head? with
  | none => .error "empty communicator"
  | some b0 => gatherByDtype b0.dtype bufs root

/-- The object-dtype check of `ScatterArray` (utils.py lines 294-301):
only the top level of a structured dtype is inspected. -/
def scatterObjectCheck : Dtype → Bool
  | .compound fields => fields.anyObject
  | .scalar ch => decide (ch = "O")

/-- `Scatterv` delivery: rank `r` receives `counts[r]` rows of the send
buffer starting at the exclusive prefix sum of the counts. -/
def scatterSlices (rows : List Val) (cnts : List Nat) : List (List Val) :=
  (List.range cnts.length).map (fun r =>
    (rows.drop ((cnts.take r).sum)).take (cnts.getD r 0))

/-- `ScatterArray(data, comm, root, counts)` (utils.py lines 243-343),
modelled collectively; `datas` is each rank's `data` argument, `none`
modelling Python `None`.  Two default-root artefacts of the source are
reproduced faithfully:
* `bad_input = comm.bcast(bad_input)` broadcasts rank 0's value; the check
  itself runs where `comm.rank == root`, so for `root ≠ 0` the broadcast
  value is rank 0's `None`, which is falsy;
* the source shape/dtype are read under `if comm.rank == 0:` — not
  `root` — so for `root ≠ 0` rank 0 dereferences its `None` input
  (`data.flags`) and raises `AttributeError` while the other ranks block
  in the subsequent `comm.bcast`; the cluster outcome is modelled as this
  error. -/
def ScatterArrayG (datas : List (Option NpArray)) (root : Nat)
    (counts : Option (List Nat)) : Except String (List (List Val)) :=
  let size := datas.length
  let countsLenOK : Bool := match counts with
    | none => true
    | some c => decide (c.length = size)
  if countsLenOK = false then .error "counts array has wrong length!"
  else
    let badInputAtRank0 : Bool :=
      if root = 0 then (datas.getD 0 none).isNone else false
    if badInputAtRank0 then .error "`data` must by numpy array on root in ScatterArray"
    else
      match datas.getD 0 none with
      | none =>
          .error "AttributeError: 'NoneType' object has no attribute 'flags' (on rank 0)"
      | some d0 =>
        let shape0 : Nat := d0.rows.length
        if scatterObjectCheck d0.dtype
        then .error "'object' data type not supported in ScatterArray; please specify specific data type"
        else
          match counts with
          | some c =>
              if c.sum ≠ shape0
              then .error "the sum of the `counts` array needs to be equal to data length"
              else .ok (scatterSlices d0.rows c)
          | none =>
              .ok (scatterSlices d0.rows
                ((List.range size).map
                  (fun r => shape0 / size + (if r < shape0 % size then 1 else 0))))

/-- C2 (code evidence): two ranks with mismatching flat dtypes (`"d"` vs
`"l"`).  With `root = 0` or `root = Ellipsis`, every rank raises the
dtype-mismatch `ValueError` — but with `root = 1` the flags are computed
on rank 1 and then broadcast by `comm.bcast` from its default root 0,
which computed `None`: no rank raises and the mismatched `Gatherv`
proceeds.  This contradicts the claim for every root value. -/
theorem gather_dtype_mismatch_root_dependent :
    GatherArrayG [⟨.scalar "d", [], [.scalar 0]⟩, ⟨.scalar "l", [], [.scalar 1]⟩]
        (.rank 0)
      = .error "mismatch between dtypes across ranks in GatherArray" ∧
    GatherArrayG [⟨.scalar "d", [], [.scalar 0]⟩, ⟨.scalar "l", [], [.scalar 1]⟩]
        .ellipsis
      = .error "mismatch between dtypes across ranks in GatherArray" ∧
    GatherArrayG [⟨.scalar "d", [], [.scalar 0]⟩, ⟨.scalar "l", [], [.scalar 1]⟩]
        (.rank 1)
      = .ok [.scalar 0, .scalar 1] := by
  refine ⟨rfl, rfl, rfl⟩

/-- C3 (code evidence): `ScatterArray` with `root = 1` on two ranks, data
held only on rank 1.  The source shape/dtype are read under
`if comm.rank == 0:` (utils.py line 283) — rank 0's data is `None`, so
rank 0 raises `AttributeError` and no rank receives a slice; the claim's
broadcast-from-root behaviour does not happen.  With `root = 0` the same
data scatters correctly. -/
theorem scatter_root_nonzero_crashes :
    ScatterArrayG [none, some ⟨.scalar "d", [], [.scalar 1, .scalar 2, .scalar 3]⟩]
        1 none
      = .error "AttributeError: 'NoneType' object has no attribute 'flags' (on rank 0)" ∧
    ScatterArrayG [some ⟨.scalar "d", [], [.scalar 1, .scalar 2, .scalar 3]⟩, none]
        0 none
      = .ok [[.scalar 1, .scalar 2], [.scalar 3]] := by
  refine ⟨rfl, rfl⟩

/-! ### Round-trip machinery (claim C1) -/

lemma dtypeAt_idxOfName : ∀ {fs : DtypeFields} {name : String} {fdt : Dtype},
    fs.findDtype name = some fdt → fs.dtypeAt (fs.idxOfName name) = fdt
  | .nil, _, _, h => by cases h
  | .cons n d rest, name, fdt, h => by
    by_cases hn : n = name
    · rw [DtypeFields.findDtype, if_pos hn] at h
      rw [DtypeFields.idxOfName, if_pos hn, DtypeFields.dtypeAt]
      exact Option.some_inj.mp h
    · rw [DtypeFields.findDtype, if_neg hn] at h
      rw [DtypeFields.idxOfName, if_neg hn, DtypeFields.dtypeAt]
      exact dtypeAt_idxOfName h

lemma name_mem_of_hasPair : ∀ {fs : DtypeFields} {name : String} {fdt : Dtype},
    fs.HasPair name fdt → name ∈ fs.names
  | .nil, _, _, h => by cases h
  | .cons n d rest, name, fdt, h => by
    rcases h with ⟨rfl, _⟩ | hp
    · exact List.mem_cons_self _ _
    · exact List.mem_cons_of_mem _ (name_mem_of_hasPair hp)

lemma findDtype_of_hasPair : ∀ {fs : DtypeFields} {name : String} {fdt : Dtype},
    fs.names.Nodup → fs.HasPair name fdt → fs.findDtype name = some fdt
  | .nil, _, _, _, h => by cases h
  | .cons n d rest, name, fdt, hnodup, h => by
    rcases List.nodup_cons.mp hnodup with ⟨hn, hrest⟩
    rcases h with ⟨rfl, rfl⟩ | hp
    · rw [DtypeFields.findDtype, if_pos rfl]
    · have hne : n ≠ name := fun he => hn (he ▸ name_mem_of_hasPair hp)
      rw [DtypeFields.findDtype, if_neg hne]
      exact findDtype_of_hasPair hrest hp

lemma conformsFields_extract : ∀ {fs : DtypeFields} {name : String} {fdt : Dtype},
    fs.findDtype name = some fdt → ∀ {vs : ValList}, conformsFieldsB fs vs = true →
      conformsB fdt (vs.get (fs.idxOfName name)) = true
  | .nil, _, _, hfind, _, _ => by cases hfind
  | .cons n d rest, name, fdt, hfind, vs, hvs => by
    cases vs with
    | nil => simp [conformsFieldsB] at hvs
    | cons v vs' =>
      rw [conformsFieldsB, Bool.and_eq_true] at hvs
      by_cases hn : n = name
      · rw [DtypeFields.findDtype, if_pos hn] at hfind
        rw [DtypeFields.idxOfName, if_pos hn, ValList.get]
        exact (Option.some_inj.mp hfind) ▸ hvs.1
      · rw [DtypeFields.findDtype, if_neg hn] at hfind
        rw [DtypeFields.idxOfName, if_neg hn, ValList.get]
        exact conformsFields_extract hfind hvs.2

lemma conforms_extract {fs : DtypeFields} {name : String} {fdt : Dtype} {v : Val}
    (hfind : fs.findDtype name = some fdt)
    (hv : conformsB (.compound fs) v = true) :
    conformsB fdt (extractValAt (fs.idxOfName name) v) = true := by
  cases v with
  | scalar x => simp [conformsB] at hv
  | record vs => exact conformsFields_extract hfind hv

lemma noObject_of_hasPair : ∀ {fs : DtypeFields} {name : String} {fdt : Dtype},
    noObjectFieldsB fs = true → fs.HasPair name fdt → noObjectB fdt = true
  | .nil, _, _, _, h => by cases h
  | .cons n d rest, name, fdt, hobj, h => by
    rw [noObjectFieldsB, Bool.and_eq_true] at hobj
    rcases h with ⟨_, rfl⟩ | hp
    · exact hobj.1
    · exact noObject_of_hasPair hobj.2 hp

lemma namesNodup_of_hasPair : ∀ {fs : DtypeFields} {name : String} {fdt : Dtype},
    namesNodupFieldsB fs = true → fs.HasPair name fdt → namesNodupB fdt = true
  | .nil, _, _, _, h => by cases h
  | .cons n d rest, name, fdt, hnn, h => by
    rw [namesNodupFieldsB, Bool.and_eq_true] at hnn
    rcases h with ⟨_, rfl⟩ | hp
    · exact hnn.1
    · exact namesNodup_of_hasPair hnn.2 hp

lemma anyObject_eq_false : ∀ {fs : DtypeFields},
    noObjectFieldsB fs = true → fs.anyObject = false
  | .nil, _ => rfl
  | .cons n d rest, hobj => by
    rw [noObjectFieldsB, Bool.and_eq_true] at hobj
    rw [DtypeFields.anyObject, Bool.or_eq_false_iff]
    refine ⟨?_, anyObject_eq_false hobj.2⟩
    cases d with
    | scalar ch =>
      have h1 : ch ≠ "O" := by
        have := hobj.1
        rw [noObjectB, decide_eq_true_eq] at this
        exact this
      simp [h1]
    | compound gs => simp

lemma ofList_names_get : ∀ {fs : DtypeFields}, fs.names.Nodup →
    ∀ {vs : ValList}, conformsFieldsB fs vs = true →
      ValList.ofList (fs.names.map (fun name => vs.get (fs.idxOfName name))) = vs
  | .nil, _, vs, hvs => by
    cases vs with
    | nil => rfl
    | cons v vs' => simp [conformsFieldsB] at hvs
  | .cons n d rest, hnodup, vs, hvs => by
    cases vs with
    | nil => simp [conformsFieldsB] at hvs
    | cons v vs' =>
      rw [conformsFieldsB, Bool.and_eq_true] at hvs
      rcases List.nodup_cons.mp hnodup with ⟨hn, hrest⟩
      rw [DtypeFields.names, List.map_cons]
      rw [show (DtypeFields.cons n d rest).idxOfName n = 0 by
        rw [DtypeFields.idxOfName, if_pos rfl]]
      rw [ValList.get, ValList.ofList]
      congr 1
      have hmapeq : rest.names.map
            (fun name => (ValList.cons v vs').get ((DtypeFields.cons n d rest).idxOfName name))
          = rest.names.map (fun name => vs'.get (rest.idxOfName name)) := by
        apply List.map_congr_left
        intro name hname
        have hne : n ≠ name := fun he => hn (he ▸ hname)
        rw [DtypeFields.idxOfName, if_neg hne, ValList.get]
      rw [hmapeq]
      exact ofList_names_get hrest hvs.2

lemma reassemble_spec {fs : DtypeFields} (g : List Val)
    (hnodup : fs.names.Nodup)
    (hconf : ∀ v ∈ g, conformsB (.compound fs) v = true) :
    reassemble (fs.names.map (fun name => g.map (extractValAt (fs.idxOfName name))))
        g.length = g := by
  apply List.ext_getElem
  · simp only [reassemble, List.length_map, List.length_range]
  · intro i h1 h2
    simp only [reassemble, List.length_map, List.length_range] at h1
    simp only [reassemble]
    rw [List.getElem_map, List.getElem_range, List.map_map]
    have hvi : conformsB (.compound fs) g[i] = true := hconf _ (List.getElem_mem h2)
    cases hgi : g[i] with
    | scalar x => rw [hgi] at hvi; simp [conformsB] at hvi
    | record vs =>
      rw [hgi] at hvi
      have hmapeq : fs.names.map
            ((fun c : List Val => c.getD i (.scalar 0))
              ∘ fun name => g.map (extractValAt (fs.idxOfName name)))
          = fs.names.map (fun name => vs.get (fs.idxOfName name)) := by
        apply List.map_congr_left
        intro name _
        simp only [Function.comp_apply]
        rw [List.getD_eq_getElem _ _ (by rw [List.length_map]; exact h2),
          List.getElem_map, hgi, extractValAt]
      rw [hmapeq, ofList_names_get hnodup hvi]

lemma bcastFlags_uniform (bufs : List NpArray) (root : GatherRoot)
    (hdt : ∀ b1 ∈ bufs, ∀ b2 ∈ bufs, b1.dtype = b2.dtype)
    (htr : ∀ b1 ∈ bufs, ∀ b2 ∈ bufs, b1.trailing = b2.trailing) :
    bcastFlags bufs root = (false, false) := by
  have hcomp : ((bufs.map (fun b => b.trailing)).drop 1).any
        (fun s => decide (s ≠ (bufs.map (fun b => b.trailing)).headD [])) = false
      ∧ ((bufs.map (fun b => b.dtype)).drop 1).any
        (fun dt => decide (dt ≠ (bufs.map (fun b => b.dtype)).headD (.scalar "d"))) = false := by
    cases bufs with
    | nil => exact ⟨rfl, rfl⟩
    | cons b0 bs =>
      constructor
      · rw [List.any_eq_false]
        intro s hs
        rcases List.mem_map.mp (by simpa using hs) with ⟨b, hb, rfl⟩
        simp [htr b (List.mem_cons_of_mem _ hb) b0 (List.mem_cons_self _ _)]
      · rw [List.any_eq_false]
        intro dt hdt2
        rcases List.mem_map.mp (by simpa using hdt2) with ⟨b, hb, rfl⟩
        simp [hdt b (List.mem_cons_of_mem _ hb) b0 (List.mem_cons_self _ _)]
  rcases hcomp with ⟨h1, h2⟩
  cases root with
  | ellipsis => simp only [bcastFlags, h1, h2]
  | rank r =>
    by_cases hr : r = 0
    · subst hr
      simp only [bcastFlags, h1, h2, if_pos]
    · simp only [bcastFlags, if_neg hr]

mutual
/-- On uniform inputs (same dtype, trailing shape, conforming rows on all
ranks, no object fields), `GatherArray` succeeds and returns all ranks'
rows concatenated in rank order. -/
theorem gatherByDtype_ok : ∀ (dt : Dtype) (bufs : List NpArray) (root : GatherRoot),
    (∀ b ∈ bufs, b.dtype = dt) →
    (∀ b1 ∈ bufs, ∀ b2 ∈ bufs, b1.trailing = b2.trailing) →
    (∀ b ∈ bufs, ∀ v ∈ b.rows, conformsB dt v = true) →
    noObjectB dt = true → namesNodupB dt = true →
    gatherByDtype dt bufs root = .ok ((bufs.map (fun b => b.rows)).flatten)
  | .scalar ch, bufs, root, hdt, htr, _hconf, hobj, _hnn => by
    have hch : ¬ (ch = "O") := by
      rw [noObjectB, decide_eq_true_eq] at hobj
      exact hobj
    have hflags := bcastFlags_uniform bufs root
      (fun b1 h1 b2 h2 => (hdt b1 h1).trans (hdt b2 h2).symm) htr
    rw [gatherByDtype, if_neg hch, hflags]
  | .compound fields, bufs, root, hdt, htr, hconf, hobj, hnn => by
    rw [noObjectB] at hobj
    rw [namesNodupB, Bool.and_eq_true, decide_eq_true_eq] at hnn
    have h1 : (bufs.map (fun b => b.dtype)).any
        (fun d => decide (namesSet d ≠ some fields.names.toFinset)) = false := by
      rw [List.any_eq_false]
      intro d hd
      rcases List.mem_map.mp hd with ⟨b, hb, rfl⟩
      rw [hdt b hb]
      simp [namesSet]
    have h2 := anyObject_eq_false hobj
    have h3 := gatherFieldCols_ok fields fields bufs root hdt hconf hobj hnn.1 hnn.2
      (fun _ _ hp => hp)
    rw [gatherByDtype, if_neg (by rw [h1]; exact Bool.false_ne_true),
      if_neg (by rw [h2]; exact Bool.false_ne_true), h3]
    have htot : (bufs.map (fun b => b.rows.length)).sum
        = ((bufs.map (fun b => b.rows)).flatten).length := by
      rw [List.length_flatten, List.map_map]
      rfl
    show Except.ok (reassemble
        (fields.names.map (fun name =>
          ((bufs.map (fun b => b.rows)).flatten).map
            (extractValAt (fields.idxOfName name))))
        ((bufs.map (fun b => b.rows.length)).sum))
      = Except.ok ((bufs.map (fun b => b.rows)).flatten)
    rw [htot]
    congr 1
    exact reassemble_spec _ hnn.1 (fun v hv => by
      rcases List.mem_flatten.mp hv with ⟨l, hl, hvl⟩
      rcases List.mem_map.mp hl with ⟨b, hb, rfl⟩
      exact hconf b hb v hvl)

/-- The field recursion gathers, for each field of `sub` (a suffix of the
shared structured dtype `full`), the concatenated global column of that
field. -/
theorem gatherFieldCols_ok :
    ∀ (sub full : DtypeFields) (bufs : List NpArray) (root : GatherRoot),
    (∀ b ∈ bufs, b.dtype = .compound full) →
    (∀ b ∈ bufs, ∀ v ∈ b.rows, conformsB (.compound full) v = true) →
    noObjectFieldsB full = true → full.names.Nodup → namesNodupFieldsB full = true →
    (∀ name fdt, sub.HasPair name fdt → full.HasPair name fdt) →
    gatherFieldCols sub bufs root
      = .ok (sub.names.map (fun name =>
          ((bufs.map (fun b => b.rows)).flatten).map
            (extractValAt (full.idxOfName name))))
  | .nil, _full, bufs, root, _, _, _, _, _, _ => by
    rw [gatherFieldCols]
    rfl
  | .cons name fdt rest, full, bufs, root, hdt, hconf, hobj, hnodup, hnnf, hsub => by
    have hpair : full.HasPair name fdt := hsub name fdt (Or.inl ⟨rfl, rfl⟩)
    have hfind := findDtype_of_hasPair hnodup hpair
    have hidx := dtypeAt_idxOfName hfind
    have hext : ∀ b ∈ bufs, extractCol name b
        = ⟨fdt, [], b.rows.map (extractValAt (full.idxOfName name))⟩ := by
      intro b hb
      rw [extractCol.eq_def, hdt b hb]
      simp [hidx]
    have hdt' : ∀ b' ∈ bufs.map (extractCol name), b'.dtype = fdt := by
      intro b' hb'
      rcases List.mem_map.mp hb' with ⟨b, hb, rfl⟩
      rw [hext b hb]
    have htr' : ∀ b1 ∈ bufs.map (extractCol name), ∀ b2 ∈ bufs.map (extractCol name),
        b1.trailing = b2.trailing := by
      intro b1 hb1 b2 hb2
      rcases List.mem_map.mp hb1 with ⟨b, hb, rfl⟩
      rcases List.mem_map.mp hb2 with ⟨c, hc, rfl⟩
      rw [hext b hb, hext c hc]
    have hconf' : ∀ b' ∈ bufs.map (extractCol name), ∀ v ∈ b'.rows,
        conformsB fdt v = true := by
      intro b' hb' v hv
      rcases List.mem_map.mp hb' with ⟨b, hb, rfl⟩
      rw [hext b hb] at hv
      rcases List.mem_map.mp hv with ⟨w, hw, rfl⟩
      exact conforms_extract hfind (hconf b hb w hw)
    have hobj' := noObject_of_hasPair hobj hpair
    have hnn' := namesNodup_of_hasPair hnnf hpair
    have hrec := gatherByDtype_ok fdt (bufs.map (extractCol name)) root
      hdt' htr' hconf' hobj' hnn'
    have hrest := gatherFieldCols_ok rest full bufs root hdt hconf hobj hnodup hnnf
      (fun n d hp => hsub n d (Or.inr hp))
    rw [gatherFieldCols, hrec, hrest]
    have hcol : ((bufs.map (extractCol name)).map (fun b => b.rows)).flatten
        = ((bufs.map (fun b => b.rows)).flatten).map
            (extractValAt (full.idxOfName name)) := by
      rw [List.map_flatten, List.map_map, List.map_map]
      congr 1
      apply List.map_congr_left
      intro b hb
      simp only [Function.comp_apply]
      rw [hext b hb]
    rw [hcol]
    rfl
end

lemma scatterObjectCheck_false {dt : Dtype} (hobj : noObjectB dt = true) :
    scatterObjectCheck dt = false := by
  cases dt with
  | scalar ch =>
    rw [noObjectB, decide_eq_true_eq] at hobj
    simp [scatterObjectCheck, hobj]
  | compound fs =>
    rw [noObjectB] at hobj
    exact anyObject_eq_false hobj

lemma scatterSlices_flatten (ls : List (List Val)) :
    scatterSlices ls.flatten (ls.map (fun l => l.length)) = ls := by
  induction ls with
  | nil => rfl
  | cons l rest ih =>
    simp only [scatterSlices, List.map_cons, List.length_cons, List.flatten_cons]
    rw [List.range_succ_eq_map, List.map_cons]
    congr 1
    · simp only [List.take_zero, List.sum_nil, List.drop_zero, List.getD_cons_zero]
      exact List.take_left l rest.flatten
    · rw [List.map_map]
      have hmap : ∀ r ∈ List.range (rest.map (fun l => l.length)).length,
          ((fun r => ((l ++ rest.flatten).drop
              (((l.length :: rest.map (fun l => l.length)).take r).sum)).take
              ((l.length :: rest.map (fun l => l.length)).getD r 0)) ∘ Nat.succ) r
          = ((rest.flatten).drop (((rest.map (fun l => l.length)).take r).sum)).take
              ((rest.map (fun l => l.length)).getD r 0) := by
        intro r _
        simp only [Function.comp_apply, List.take_succ_cons, List.sum_cons,
          List.getD_cons_succ]
        rw [List.drop_append]
      rw [List.map_congr_left hmap]
      simpa only [scatterSlices] using ih

lemma ScatterArrayG_root0 (d0 : NpArray) (others : List (Option NpArray))
    (c : List Nat)
    (hlen : c.length = others.length + 1)
    (hobj : scatterObjectCheck d0.dtype = false)
    (hsum : c.sum = d0.rows.length) :
    ScatterArrayG (some d0 :: others) 0 (some c) = .ok (scatterSlices d0.rows c) := by
  simp only [ScatterArrayG, List.length_cons]
  rw [if_neg (by simp [hlen]), if_neg (by simp)]
  simp only [List.getD_cons_zero]
  rw [if_neg (by simp [hobj]), if_neg (by simp [hsum])]

/-- C1: `ScatterArray(GatherArray(A.local, comm, root=0), comm, root=0,
counts=original local lengths)` reproduces each rank's original local
content, for flat and compound element types and any number `N ≥ 1` of
ranks.  Here `bufs` is the per-rank striped array (one shared dtype `dt`
with distinct field names and no object fields, one shared trailing shape
`tr`, rows conforming to `dt`); the gather delivers the concatenation of
all local rows on rank 0, and the scatter hands rank `r` back exactly its
original rows. -/
theorem gather_scatter_roundtrip (bufs : List NpArray) (dt : Dtype) (tr : List Nat)
    (hne : bufs ≠ [])
    (hdt : ∀ b ∈ bufs, b.dtype = dt)
    (htr : ∀ b ∈ bufs, b.trailing = tr)
    (hconf : ∀ b ∈ bufs, ∀ v ∈ b.rows, conformsB dt v = true)
    (hobj : noObjectB dt = true)
    (hnn : namesNodupB dt = true) :
    GatherArrayG bufs (.rank 0) = .ok ((bufs.map (fun b => b.rows)).flatten) ∧
    ScatterArrayG
        (some ⟨dt, tr, (bufs.map (fun b => b.rows)).flatten⟩
          :: (bufs.drop 1).map (fun _ => none))
        0 (some (bufs.map (fun b => b.rows.length)))
      = .ok (bufs.map (fun b => b.rows)) := by
  constructor
  · cases bufs with
    | nil => exact absurd rfl hne
    | cons b0 bs =>
      show gatherByDtype b0.dtype (b0 :: bs) (.rank 0) = _
      rw [hdt b0 (List.mem_cons_self _ _)]
      exact gatherByDtype_ok dt (b0 :: bs) (.rank 0) hdt
        (fun b1 h1 b2 h2 => (htr b1 h1).trans (htr b2 h2).symm) hconf hobj hnn
  · rw [ScatterArrayG_root0]
    · have h1 : bufs.map (fun b => b.rows.length)
          = (bufs.map (fun b => b.rows)).map (fun l => l.length) := by
        rw [List.map_map]
        rfl
      rw [h1, scatterSlices_flatten]
    · rw [List.length_map, List.length_map, List.length_drop]
      cases bufs with
      | nil => exact absurd rfl hne
      | cons b0 bs => simp
    · exact scatterObjectCheck_false hobj
    · show (bufs.map (fun b => b.rows.length)).sum
        = ((bufs.map (fun b => b.rows)).flatten).length
      rw [List.length_flatten, List.map_map]
      rfl

/-- Witness for `gather_scatter_roundtrip`: three ranks holding a
structured dtype with a nested compound field, lengths 2, 0, 1. -/
theorem gather_scatter_roundtrip_witness :
    GatherArrayG
        [⟨.compound (.cons "a" (.scalar "l") (.cons "b"
            (.compound (.cons "c" (.scalar "d") .nil)) .nil)), [],
          [.record (.cons (.scalar 1) (.cons (.record (.cons (.scalar 10) .nil)) .nil)),
           .record (.cons (.scalar 2) (.cons (.record (.cons (.scalar 20) .nil)) .nil))]⟩,
         ⟨.compound (.cons "a" (.scalar "l") (.cons "b"
            (.compound (.cons "c" (.scalar "d") .nil)) .nil)), [], []⟩,
         ⟨.compound (.cons "a" (.scalar "l") (.cons "b"
            (.compound (.cons "c" (.scalar "d") .nil)) .nil)), [],
          [.record (.cons (.scalar 3) (.cons (.record (.cons (.scalar 30) .nil)) .nil))]⟩]
        (.rank 0)
      = .ok
        [.record (.cons (.scalar 1) (.cons (.record (.cons (.scalar 10) .nil)) .nil)),
         .record (.cons (.scalar 2) (.cons (.record (.cons (.scalar 20) .nil)) .nil)),
         .record (.cons (.scalar 3) (.cons (.record (.cons (.scalar 30) .nil)) .nil))] ∧
    ScatterArrayG
        [some ⟨.compound (.cons "a" (.scalar "l") (.cons "b"
            (.compound (.cons "c" (.scalar "d") .nil)) .nil)), [],
          [.record (.cons (.scalar 1) (.cons (.record (.cons (.scalar 10) .nil)) .nil)),
           .record (.cons (.scalar 2) (.cons (.record (.cons (.scalar 20) .nil)) .nil)),
           .record (.cons (.scalar 3) (.cons (.record (.cons (.scalar 30) .nil)) .nil))]⟩,
         none, none]
        0 (some [2, 0, 1])
      = .ok
        [[.record (.cons (.scalar 1) (.cons (.record (.cons (.scalar 10) .nil)) .nil)),
          .record (.cons (.scalar 2) (.cons (.record (.cons (.scalar 20) .nil)) .nil))],
         [],
         [.record (.cons (.scalar 3) (.cons (.record (.cons (.scalar 30) .nil)) .nil))]] := by
  have h := gather_scatter_roundtrip
    [⟨.compound (.cons "a" (.scalar "l") (.cons "b"
        (.compound (.cons "c" (.scalar "d") .nil)) .nil)), [],
      [.record (.cons (.scalar 1) (.cons (.record (.cons (.scalar 10) .nil)) .nil)),
       .record (.cons (.scalar 2) (.cons (.record (.cons (.scalar 20) .nil)) .nil))]⟩,
     ⟨.compound (.cons "a" (.scalar "l") (.cons "b"
        (.compound (.cons "c" (.scalar "d") .nil)) .nil)), [], []⟩,
     ⟨.compound (.cons "a" (.scalar "l") (.cons "b"
        (.compound (.cons "c" (.scalar "d") .nil)) .nil)), [],
      [.record (.cons (.scalar 3) (.cons (.record (.cons (.scalar 30) .nil)) .nil))]⟩]
    (.compound (.cons "a" (.scalar "l") (.cons "b"
        (.compound (.cons "c" (.scalar "d") .nil)) .nil)))
    []
    (by decide) (by decide) (by decide) (by decide) (by decide) (by decide)
  exact h

/-! ## FrontPadArray (utils.py lines 345-365) -/

/-- `array[-n:]` for `n > 0`, `array[0:0]` for `n = 0`: the last `n` items
(all of them when `n ≥ len`). -/
def takeLastN (n : Nat) (l : List Int) : List Int := l.drop (l.length - n)

/-- Exclusive prefix sums of the allgathered lengths
(`offsets = numpy.cumsum(numpy.concatenate([[0], N]))`): entry `r` is the
global index where rank `r`'s range starts. -/
def rankOffset (locals : List (List Int)) (r : Nat) : Nat :=
  ((locals.map (fun l => l.length)).take r).sum

/-- Rank `r`'s clamped receive plan for peer `i` (utils.py lines 351-356):
`torecv = (offsets[:-1] + N) - mystart` with `mystart = offsets[rank] -
front`, entries below 0 or above `front` zeroed, entries above a peer's
length clamped to that length. -/
def torecv (locals : List (List Int)) (front : Nat) (r i : Nat) : Nat :=
  let mystart : Int := (rankOffset locals r : Int) - (front : Int)
  let raw : Int := (rankOffset locals (i + 1) : Int) - mystart
  let t1 : Int := if raw < 0 then 0 else raw
  let t2 : Int := if t1 > (front : Int) then 0 else t1
  let Ni : Int := ((locals.getD i []).length : Int)
  (if t2 > Ni then Ni else t2).toNat

/-- `torecv.sum()` on rank `r`. -/
def torecvSum (locals : List (List Int)) (front : Nat) (r : Nat) : Nat :=
  ((List.range locals.length).map (torecv locals front r)).sum

/-- `FrontPadArray(array, front, comm)` modelled collectively on the
per-rank inputs `locals` and `fronts`.  The feasibility check
`comm.allreduce(torecv.sum() != front, MPI.LOR)` makes every rank raise
the same `ValueError` when any rank's plan does not add up; otherwise the
two `alltoall` exchanges deliver to rank `r`, from every peer `i` in rank
order, the last `torecv[i]` items of peer `i`'s local data
(`array[-items:]`), which are concatenated before rank `r`'s own local
data. -/
def FrontPadArrayG (locals : List (List Int)) (fronts : List Nat) :
    Except String (List (List Int)) :=
  if (List.range locals.length).any
      (fun r => decide (torecvSum locals (fronts.getD r 0) r ≠ fronts.getD r 0))
  then .error "cannot work out a plan to padd items. Some front values are too large."
  else .ok ((List.range locals.length).map (fun r =>
    ((List.range locals.length).map (fun i =>
        takeLastN (torecv locals (fronts.getD r 0) r i) (locals.getD i []))).flatten
      ++ locals.getD r []))

lemma rankOffset_succ (locals : List (List Int)) (i : Nat) :
    rankOffset locals (i + 1) = rankOffset locals i + (locals.getD i []).length := by
  rw [rankOffset, rankOffset, List.take_succ, List.sum_append]
  congr 1
  cases h : (locals.map (fun l => l.length))[i]? with
  | none =>
    have hlen : locals.length ≤ i := by
      have := List.getElem?_eq_none_iff.mp h
      rwa [List.length_map] at this
    rw [List.getD_eq_getElem?_getD, List.getElem?_eq_none (by omega)]
    rfl
  | some k =>
    have hlen : i < locals.length := by
      by_contra hge
      rw [List.getElem?_eq_none (by rw [List.length_map]; omega)] at h
      cases h
    rw [List.getElem?_eq_getElem (by rw [List.length_map]; omega)] at h
    rw [List.getElem_map] at h
    rw [List.getD_eq_getElem?_getD, List.getElem?_eq_getElem hlen]
    simp only [Option.getD_some, Option.toList_some, List.sum_cons, List.sum_nil]
    injection h with h
    omega

lemma rankOffset_mono (locals : List (List Int)) : Monotone (rankOffset locals) := by
  apply monotone_nat_of_le_succ
  intro n
  rw [rankOffset_succ]
  omega

/-- Peers at or after rank `r` contribute nothing to `r`'s plan. -/
lemma torecv_eq_zero_of_ge (locals : List (List Int)) (front : Nat) {r i : Nat}
    (hri : r ≤ i) :
    torecv locals front r i = 0 := by
  have h1 : rankOffset locals r ≤ rankOffset locals i := rankOffset_mono locals hri
  have h2 := rankOffset_succ locals i
  have hTE : rankOffset locals r ≤ rankOffset locals (i + 1) :=
    rankOffset_mono locals (by omega)
  rw [torecv]
  set T := rankOffset locals r with hT
  set M := rankOffset locals i with hM
  set E := rankOffset locals (i + 1) with hE
  set Ni := (locals.getD i []).length with hNi
  rw [if_neg (show ¬ ((E : Int) - ((T : Int) - (front : Int)) < 0) by omega)]
  rcases Nat.eq_or_lt_of_le hTE with hET | hlt
  · -- the peer's range is empty: `E = T`, the plan entry is `front`,
    -- clamped to the peer's length 0
    have hNi0 : Ni = 0 := by omega
    rw [if_neg (show ¬ ((E : Int) - ((T : Int) - (front : Int)) > (front : Int)) by
      omega)]
    rcases Nat.eq_zero_or_pos front with hf0 | hfpos
    · rw [if_neg (show ¬ ((E : Int) - ((T : Int) - (front : Int)) > (Ni : Int)) by
        omega)]
      omega
    · rw [if_pos (show (E : Int) - ((T : Int) - (front : Int)) > (Ni : Int) by omega)]
      omega
  · -- the raw entry exceeds `front` and is zeroed
    rw [if_pos (show (E : Int) - ((T : Int) - (front : Int)) > (front : Int) by omega)]
    rw [if_neg (show ¬ ((0 : Int) > (Ni : Int)) by omega)]
    rfl

/-- For a peer before rank `r`, the plan is the intersection length
`min N_i (front - (offsets[r] - offsets[i+1]))`, clamped at 0. -/
lemma torecv_eq_of_lt (locals : List (List Int)) (front : Nat) {r i : Nat}
    (hir : i < r) :
    torecv locals front r i
      = min (locals.getD i []).length
          (((rankOffset locals (i + 1) : Int) - (rankOffset locals r : Int)
            + (front : Int)).toNat) := by
  have h1 : rankOffset locals (i + 1) ≤ rankOffset locals r :=
    rankOffset_mono locals hir
  rw [torecv]
  set T := rankOffset locals r with hT
  set E := rankOffset locals (i + 1) with hE
  set Ni := (locals.getD i []).length with hNi
  by_cases hneg : (E : Int) - ((T : Int) - (front : Int)) < 0
  · rw [if_pos hneg]
    rw [if_neg (show ¬ ((0 : Int) > (front : Int)) by omega)]
    rw [if_neg (show ¬ ((0 : Int) > (Ni : Int)) by omega)]
    omega
  · rw [if_neg hneg]
    rw [if_neg (show ¬ ((E : Int) - ((T : Int) - (front : Int)) > (front : Int)) by
      omega)]
    by_cases hbig : (E : Int) - ((T : Int) - (front : Int)) > (Ni : Int)
    · rw [if_pos hbig]
      omega
    · rw [if_neg hbig]
      omega

/-- Structural form of the receive plan: from each block, the tail that
lies at or after the global window position `w`. -/
def pieces (w : Int) : List (List Int) → List (List Int)
  | [] => []
  | l :: rest =>
      takeLastN (min l.length ((l.length : Int) - w).toNat) l
        :: pieces (w - l.length) rest

lemma takeLastN_length (n : Nat) (l : List Int) :
    (takeLastN n l).length = l.length - (l.length - n) := by
  rw [takeLastN, List.length_drop]

lemma rankOffset_cons (l : List Int) (rest : List (List Int)) (k : Nat) :
    rankOffset (l :: rest) (k + 1) = l.length + rankOffset rest k := by
  rw [rankOffset, rankOffset, List.map_cons, List.take_succ_cons, List.sum_cons]

lemma pieces_flatten : ∀ (ls : List (List Int)) (w : Int),
    (pieces w ls).flatten = ls.flatten.drop w.toNat
  | [], w => by
    rw [pieces]
    simp
  | l :: rest, w => by
    rw [pieces, List.flatten_cons, List.flatten_cons,
      pieces_flatten rest (w - l.length)]
    by_cases h0 : w ≤ 0
    · have hw0 : w.toNat = 0 := by omega
      have hk : min l.length (((l.length : Int) - w).toNat) = l.length := by omega
      have hw1 : (w - (l.length : Int)).toNat = 0 := by omega
      rw [hk, hw0, hw1, takeLastN, List.drop_zero, Nat.sub_self, List.drop_zero,
        List.drop_zero]
    · by_cases h1 : w < (l.length : Int)
      · have hk : min l.length (((l.length : Int) - w).toNat) = l.length - w.toNat := by
          omega
        have hd : l.length - (l.length - w.toNat) = w.toNat := by omega
        have hw1 : (w - (l.length : Int)).toNat = 0 := by omega
        rw [hk, hw1, takeLastN, hd, List.drop_zero,
          List.drop_append_of_le_length (by omega)]
      · have hk : min l.length (((l.length : Int) - w).toNat) = 0 := by omega
        have hw1 : (w - (l.length : Int)).toNat = w.toNat - l.length := by omega
        rw [hk, hw1, takeLastN, Nat.sub_zero, List.drop_length, List.nil_append]
        conv_rhs => rw [show w.toNat = l.length + (w.toNat - l.length) by omega,
          List.drop_append]

lemma pieces_index (ls : List (List Int)) : ∀ w : Int,
    pieces w ls = (List.range ls.length).map (fun i =>
      takeLastN (min (ls.getD i []).length
        (((rankOffset ls (i + 1) : Int) - w).toNat)) (ls.getD i [])) := by
  induction ls with
  | nil => intro w; rfl
  | cons l rest ih =>
    intro w
    rw [pieces, show (l :: rest).length = rest.length + 1 from rfl,
      List.range_succ_eq_map, List.map_cons]
    congr 1
    rw [ih (w - l.length), List.map_map]
    apply List.map_congr_left
    intro i _
    simp only [Function.comp_apply, List.getD_cons_succ]
    have h2 : ((rankOffset rest (i + 1) : Int) - (w - (l.length : Int)))
        = ((rankOffset (l :: rest) (i + 1 + 1) : Int) - w) := by
      rw [rankOffset_cons]
      push_cast
      ring
    rw [h2]

lemma torecv_le (locals : List (List Int)) (front : Nat) (r i : Nat) :
    torecv locals front r i ≤ (locals.getD i []).length := by
  rcases Nat.lt_or_ge i r with h | h
  · rw [torecv_eq_of_lt locals front h]
    omega
  · rw [torecv_eq_zero_of_ge locals front h]
    omega

lemma rankOffset_take (locals : List (List Int)) {r k : Nat} (hk : k ≤ r) :
    rankOffset (locals.take r) k = rankOffset locals k := by
  rw [rankOffset, rankOffset, List.map_take, List.take_take, min_eq_left hk]

lemma getD_take (locals : List (List Int)) {r i : Nat} (hi : i < r) :
    (locals.take r).getD i [] = locals.getD i [] := by
  rw [List.getD_eq_getElem?_getD, List.getD_eq_getElem?_getD, List.getElem?_take]
  rw [if_pos hi]

lemma length_take_flatten (locals : List (List Int)) (r : Nat) :
    ((locals.take r).flatten).length = rankOffset locals r := by
  rw [List.length_flatten, List.map_take]
  rfl

/-- The data rank `r` receives is exactly the tail of the lower ranks'
concatenation that starts `front` positions before this rank's offset
(saturating at the start of the array). -/
lemma frontPad_rank_recv (locals : List (List Int)) (front : Nat) {r : Nat}
    (hr : r ≤ locals.length) :
    ((List.range locals.length).map (fun i =>
        takeLastN (torecv locals front r i) (locals.getD i []))).flatten
      = ((locals.take r).flatten).drop
          (((rankOffset locals r : Int) - (front : Int)).toNat) := by
  have hsplit : List.range locals.length
      = List.range r ++ (List.range (locals.length - r)).map (r + ·) := by
    rw [← List.range_add]
    congr 1
    omega
  rw [hsplit, List.map_append, List.flatten_append]
  have hzero : (((List.range (locals.length - r)).map (r + ·)).map (fun i =>
      takeLastN (torecv locals front r i) (locals.getD i []))).flatten = [] := by
    rw [List.flatten_eq_nil_iff]
    intro l hl
    rcases List.mem_map.mp hl with ⟨i, hi, rfl⟩
    rcases List.mem_map.mp hi with ⟨j, _, rfl⟩
    rw [torecv_eq_zero_of_ge locals front (Nat.le_add_right r j), takeLastN,
      Nat.sub_zero, List.drop_length]
  rw [hzero, List.append_nil]
  have hfirst : (List.range r).map (fun i =>
      takeLastN (torecv locals front r i) (locals.getD i []))
      = pieces ((rankOffset locals r : Int) - (front : Int)) (locals.take r) := by
    rw [pieces_index, List.length_take]
    have hlr : min r locals.length = r := min_eq_left hr
    rw [hlr]
    apply List.map_congr_left
    intro i hi
    have hir : i < r := List.mem_range.mp hi
    rw [getD_take locals hir, rankOffset_take locals (by omega : i + 1 ≤ r),
      torecv_eq_of_lt locals front hir]
    congr 2
    omega
  rw [hfirst, pieces_flatten]

/-- Rank `r`'s plan always sums to `min front offsets[r]` — so it equals
`front` exactly when at least `front` elements precede rank `r`. -/
lemma torecvSum_eq (locals : List (List Int)) (front : Nat) {r : Nat}
    (hr : r ≤ locals.length) :
    torecvSum locals front r = min front (rankOffset locals r) := by
  have hlen : (((List.range locals.length).map (fun i =>
      takeLastN (torecv locals front r i) (locals.getD i []))).flatten).length
      = torecvSum locals front r := by
    rw [List.length_flatten, List.map_map, torecvSum]
    congr 1
    apply List.map_congr_left
    intro i _
    simp only [Function.comp_apply]
    rw [takeLastN_length]
    have := torecv_le locals front r i
    omega
  rw [frontPad_rank_recv locals front hr] at hlen
  rw [List.length_drop, length_take_flatten] at hlen
  omega

/-- C6: `FrontPadArray` either pads every rank's local data in front with
exactly `front` elements — the `front` global elements immediately
preceding this rank's offset, taken in rank order from the predecessor
ranks' tails — giving `front + len(local)` elements with the local buffer
unchanged behind them; or, when some rank requests more preceding elements
than exist globally before it, every rank raises the same `ValueError`
(the feasibility flag is combined with a logical-OR allreduce, so the
outcome is collective). -/
theorem frontPadArray_spec (locals : List (List Int)) (fronts : List Nat) :
    ((∀ r < locals.length, fronts.getD r 0 ≤ rankOffset locals r) →
      (FrontPadArrayG locals fronts = .ok ((List.range locals.length).map (fun r =>
        takeLastN (fronts.getD r 0) ((locals.take r).flatten) ++ locals.getD r [])) ∧
       ∀ r < locals.length,
        (takeLastN (fronts.getD r 0) ((locals.take r).flatten) ++ locals.getD r []).length
          = fronts.getD r 0 + (locals.getD r []).length)) ∧
    ((∃ r < locals.length, rankOffset locals r < fronts.getD r 0) →
      FrontPadArrayG locals fronts
        = .error "cannot work out a plan to padd items. Some front values are too large.") := by
  constructor
  · intro hfeas
    constructor
    · rw [FrontPadArrayG, if_neg, Except.ok.injEq]
      · apply List.map_congr_left
        intro r hrmem
        have hr : r < locals.length := List.mem_range.mp hrmem
        congr 1
        rw [frontPad_rank_recv locals (fronts.getD r 0) (le_of_lt hr), takeLastN,
          length_take_flatten]
        congr 1
        have := hfeas r hr
        omega
      · have hfalse : ((List.range locals.length).any
            (fun r => decide (torecvSum locals (fronts.getD r 0) r ≠ fronts.getD r 0)))
            = false := by
          rw [List.any_eq_false]
          intro r hrmem
          have hr : r < locals.length := List.mem_range.mp hrmem
          rw [decide_eq_true_eq, not_ne_iff, torecvSum_eq locals _ (le_of_lt hr)]
          exact min_eq_left (hfeas r hr)
        rw [hfalse]
        exact Bool.false_ne_true
    · intro r hr
      rw [List.length_append, takeLastN_length, length_take_flatten]
      have hfr := hfeas r hr
      simp only [List.getD_eq_getElem?_getD] at hfr ⊢
      omega
  · rintro ⟨r, hr, hinfeas⟩
    rw [FrontPadArrayG, if_pos]
    rw [List.any_eq_true]
    refine ⟨r, List.mem_range.mpr hr, ?_⟩
    rw [decide_eq_true_eq, torecvSum_eq locals _ (le_of_lt hr)]
    omega

/-- Witness for `frontPadArray_spec`: three ranks `[1,2] | [3] | [4,5]`
with fronts `0, 1, 2`; the padded results are
`[1,2] | [2,3] | [2,3,4,5]`. -/
theorem frontPadArray_spec_witness :
    FrontPadArrayG [[1, 2], [3], [4, 5]] [0, 1, 2]
      = .ok [[1, 2], [2, 3], [2, 3, 4, 5]] ∧
    FrontPadArrayG [[1, 2], [3], [4, 5]] [0, 3, 0]
      = .error "cannot work out a plan to padd items. Some front values are too large." := by
  constructor
  · have h := (frontPadArray_spec [[1, 2], [3], [4, 5]] [0, 1, 2]).1 (by decide)
    rw [h.1]
    rfl
  · exact (frontPadArray_spec [[1, 2], [3], [4, 5]] [0, 3, 0]).2 ⟨1, by decide, by decide⟩

/-! ### DistributedArray construction: `_find_dtype`, `_find_cshape`, `__init__` (C9)

`DistributedArray.__init__` computes each rank's shape and, when the local
buffer is non-empty, its dtype (`None` otherwise).  `_find_dtype` gathers the
per-rank dtypes, drops the `None`s, forms the set of the rest, raises if more
than one remains and returns the survivor.  `_find_cshape` gathers the
per-rank shapes, forms the set of trailing shapes `shape[1:]` over ALL ranks
(empty ones included), raises if more than one remains, and returns the summed
first dimension together with the trailing shape. -/

def arrShape (a : NpArray) : Nat × List Nat := (a.rows.length, a.trailing)

def arrDtypeOpt (a : NpArray) : Option Dtype :=
  if a.rows.length = 0 then none else some a.dtype

def find_dtype (dtypes : List (Option Dtype)) : Except String Dtype :=
  if 1 < ((dtypes.filterMap id).dedup).length then
    .error "Type of local array is inconsistent between ranks"
  else
    match (dtypes.filterMap id).dedup with
    | [] => .error "StopIteration"
    | d :: _ => .ok d

def find_cshape (shapes : List (Nat × List Nat)) : Except String (Nat × List Nat) :=
  if 1 < ((shapes.map Prod.snd).dedup).length then
    .error "Shape of local array is inconsistent between ranks"
  else
    .ok ((shapes.map Prod.fst).sum, (shapes.headD (0, [])).snd)

def DistributedArrayInit (locals : List NpArray) :
    Except String (Dtype × (Nat × List Nat)) :=
  match find_dtype (locals.map arrDtypeOpt) with
  | .error e => .error e
  | .ok dt =>
      match find_cshape (locals.map arrShape) with
      | .error e => .error e
      | .ok cs => .ok (dt, cs)

lemma dedup_all_eq {α : Type} [DecidableEq α] (l : List α) (d : α)
    (hne : l ≠ []) (hall : ∀ x ∈ l, x = d) : l.dedup = [d] := by
  have hmemd : d ∈ l.dedup := by
    rcases List.exists_mem_of_ne_nil l hne with ⟨x, hx⟩
    rw [List.mem_dedup]
    exact hall x hx ▸ hx
  have halld : ∀ x ∈ l.dedup, x = d := fun x hx => hall x (List.mem_dedup.mp hx)
  have hnd := l.nodup_dedup
  match hd : l.dedup with
  | [] => exact absurd (hd ▸ hmemd) (List.not_mem_nil d)
  | a :: rest =>
      have ha : a = d := halld a (hd ▸ List.mem_cons_self a rest)
      have hrest : rest = [] := by
        match rest, hd with
        | [], _ => rfl
        | b :: more, hd =>
            have hb : b = d := halld b (hd ▸ List.mem_cons_of_mem a (List.mem_cons_self b more))
            rw [hd] at hnd
            rcases List.nodup_cons.mp hnd with ⟨hna, _⟩
            exact absurd (List.mem_cons_self b more) (by rw [hb, ← ha] at hna ⊢; exact hna)
      rw [ha, hrest]

/-- C9 counterexample: two ranks, both with non-empty local buffers of the
same dtype `"l"`, but with trailing shapes `(3,)` and `(4,)`.  The claim
predicts the construction succeeds; `_find_cshape` raises on the trailing
shapes instead. -/
theorem distributed_array_trailing_counterexample :
    DistributedArrayInit
      [⟨Dtype.scalar "l", [3], [Val.scalar 0]⟩,
       ⟨Dtype.scalar "l", [4], [Val.scalar 1]⟩]
      = .error "Shape of local array is inconsistent between ranks" ∧
    (∀ a ∈ ([⟨Dtype.scalar "l", [3], [Val.scalar 0]⟩,
             ⟨Dtype.scalar "l", [4], [Val.scalar 1]⟩] : List NpArray),
      a.rows.length ≠ 0 ∧ a.dtype = Dtype.scalar "l") :=
  ⟨rfl, by decide⟩

/-- C9 (amended): if every rank's trailing shape is `t`, every rank with a
non-empty local buffer has dtype `dt`, and at least one rank is non-empty,
then the construction succeeds with dtype `dt` and cshape
`(sum of local lengths, t)` — regardless of the dtype fields of the empty
ranks' buffers, which `__init__` replaces by `None`. -/
theorem distributed_array_empty_rank_dtype (locals : List NpArray)
    (dt : Dtype) (t : List Nat)
    (hne : ∃ a ∈ locals, a.rows.length ≠ 0)
    (hdt : ∀ a ∈ locals, a.rows.length ≠ 0 → a.dtype = dt)
    (ht : ∀ a ∈ locals, a.trailing = t) :
    DistributedArrayInit locals
      = .ok (dt, ((locals.map (fun a => a.rows.length)).sum, t)) := by
  rcases hne with ⟨a0, ha0, hlen0⟩
  have hlne : locals ≠ [] := List.ne_nil_of_mem ha0
  have hdd : ((locals.map arrDtypeOpt).filterMap id).dedup = [dt] := by
    apply dedup_all_eq
    · intro hnil
      have hmem : a0.dtype ∈ (locals.map arrDtypeOpt).filterMap id := by
        rw [List.mem_filterMap]
        refine ⟨some a0.dtype, ?_, rfl⟩
        rw [List.mem_map]
        exact ⟨a0, ha0, by rw [arrDtypeOpt, if_neg hlen0]⟩
      rw [hnil] at hmem
      exact (List.not_mem_nil _) hmem
    · intro x hx
      rcases List.mem_filterMap.mp hx with ⟨o, ho, hox⟩
      rcases List.mem_map.mp ho with ⟨a, ha, rfl⟩
      simp only [id_eq] at hox
      rw [arrDtypeOpt] at hox
      by_cases h0 : a.rows.length = 0
      · rw [if_pos h0] at hox
        exact absurd hox (by simp)
      · rw [if_neg h0] at hox
        rw [← Option.some.inj hox]
        exact hdt a ha h0
  have hts : ((locals.map arrShape).map Prod.snd).dedup = [t] := by
    apply dedup_all_eq
    · simp only [ne_eq, List.map_eq_nil_iff]
      exact hlne
    · intro x hx
      rcases List.mem_map.mp hx with ⟨p, hp, rfl⟩
      rcases List.mem_map.mp hp with ⟨a, ha, rfl⟩
      exact ht a ha
  have hfst : (locals.map arrShape).map Prod.fst
      = locals.map (fun a => a.rows.length) := by
    rw [List.map_map]
    apply List.map_congr_left
    intro a _
    rfl
  have hhead : ((locals.map arrShape).headD (0, [])).snd = t := by
    match locals, hlne, ht with
    | a :: rest, _, ht => exact ht a (List.mem_cons_self a rest)
  have h1 : find_dtype (locals.map arrDtypeOpt) = .ok dt := by
    rw [find_dtype, hdd]
    rfl
  have h2 : find_cshape (locals.map arrShape)
      = .ok ((locals.map (fun a => a.rows.length)).sum, t) := by
    rw [find_cshape, hts, if_neg (by simp), hfst, hhead]
  rw [DistributedArrayInit, h1, h2]

/-- Witness for `distributed_array_empty_rank_dtype`: rank 0 holds one `l`
element, rank 1 is empty with dtype field `d`; construction succeeds with
dtype `l` and cshape `(1,)`. -/
theorem distributed_array_empty_rank_dtype_witness :
    DistributedArrayInit
      [⟨Dtype.scalar "l", [], [Val.scalar 7]⟩, ⟨Dtype.scalar "d", [], []⟩]
      = .ok (Dtype.scalar "l", (1, [])) := by
  exact distributed_array_empty_rank_dtype
    [⟨Dtype.scalar "l", [], [Val.scalar 7]⟩, ⟨Dtype.scalar "d", [], []⟩]
    (Dtype.scalar "l") []
    ⟨⟨Dtype.scalar "l", [], [Val.scalar 7]⟩, by decide, by decide⟩
    (by decide) (by decide)

end NbodykitUtils
